import Mathlib

/-!
Verification of the deduplication engine of `src/pages/api/dedupe.ts`.

The development shallowly embeds the code of `dedupe.ts`:

* the string similarity metric (`levenshteinDistance`, `similarity`,
  `LEVENSHTEIN_THRESHOLD`), with JS strings modelled as `List Char` and the
  floating-point score modelled exactly over `ℚ`;
* the corpus loader `getAllNewsItems`, with the blob store's `list`/`fetch`
  outcomes supplied as data;
* the nested pairwise scan of `handler` (`innerLoop`/`outerLoop`/`runDedupe`),
  with the in-place `splice` mutation, the `j--` index adjustment, the
  per-call failure behaviour of `deleteBlob`, and the best-effort persona
  ("vibe") cache cleanup all modelled step by step.  JS object identity is
  modelled by an `id` field;
* the HTTP surface of `handler` (method check, success and failure payloads).

Every similarity comparison, deletion, and removal performed by the scan is
recorded in an event log, which the theorems inspect.
-/

/-! ## String similarity metric (dedupe.ts lines 5-37)

The source builds a full `(|a|+1) × (|b|+1)` dynamic-programming matrix with
`matrix[i][0] = i`, `matrix[0][j] = j` and
`matrix[i][j] = min(matrix[i-1][j] + 1, matrix[i][j-1] + 1,
                    matrix[i-1][j-1] + cost)`.
The embedding computes the same matrix row by row: `rowTail` fills the body of
one row from the previous row (carrying the value just computed to its left),
`nextRow` prepends the first column entry `i`, and `levRows` iterates over the
characters of `a`.  `levenshteinDistance` reads off `matrix[a.length][b.length]`.
-/

/-- Substitution cost from dedupe.ts line 20:
`const cost = a[i - 1] === b[j - 1] ? 0 : 1`. -/
def cost (x y : Char) : ℕ := if x = y then 0 else 1

/-- Fills the entries `matrix[i][j]` for `j = 1 .. |b|` of one DP row, given
the previous row (starting at its `j-1` entry) and the entry to the left. -/
def rowTail (x : Char) : List Char → List ℕ → ℕ → List ℕ
  | y :: ys, pdiag :: prest, left =>
      let c := min (prest.headD 0 + 1) (min (left + 1) (pdiag + cost x y))
      c :: rowTail x ys prest c
  | _ :: _, [], _ => []
  | [], _, _ => []

/-- One full DP row `matrix[i]`: the first column entry `i` (dedupe.ts line 11)
followed by the body entries. -/
def nextRow (x : Char) (b : List Char) (prev : List ℕ) (i : ℕ) : List ℕ :=
  i :: rowTail x b prev i

/-- Iterates the row computation over the characters of `a`
(the outer loop of dedupe.ts lines 18-27), returning the final row. -/
def levRows (b : List Char) : List Char → ℕ → List ℕ → List ℕ
  | [], _, row => row
  | x :: xs, i, row => levRows b xs (i + 1) (nextRow x b row i)

/-- The edit distance of dedupe.ts lines 7-30: row `0` is
`[0, 1, ..., b.length]` (line 15), and the result is
`matrix[a.length][b.length]` (line 29). -/
def levenshteinDistance (a b : List Char) : ℕ :=
  (levRows b a 1 (List.range (b.length + 1))).getD b.length 0

/-- The similarity score of dedupe.ts lines 32-37, computed exactly over `ℚ`. -/
def similarity (a b : List Char) : ℚ :=
  let maxLength := max a.length b.length
  if maxLength = 0 then 1.0 else 1 - (levenshteinDistance a b : ℚ) / (maxLength : ℚ)

/-- The duplicate threshold of dedupe.ts line 5. -/
def LEVENSHTEIN_THRESHOLD : ℚ := 0.8

/-! ## Specification-side edit distance

`levRec` is the textbook recurrence for Levenshtein distance (peeling first
characters); `Step`/`EditsTo` are single-character edit operations at
arbitrary positions, exactly as the spec describes them ("minimum number of
single-character insertions, deletions, substitutions to transform `a` into
`b`").  Below we prove that the source's DP matrix computes the least `n`
with `EditsTo n a b`. -/

/-- Textbook first-character recurrence for the Levenshtein distance. -/
def levRec : List Char → List Char → ℕ
  | [], ys => ys.length
  | _ :: xs, [] => xs.length + 1
  | x :: xs, y :: ys =>
      min (levRec xs (y :: ys) + 1) (min (levRec (x :: xs) ys + 1) (levRec xs ys + cost x y))

/-- A single-character edit at an arbitrary position: substitution, insertion,
or deletion. -/
inductive Step : List Char → List Char → Prop
  | subst (u v : List Char) (x y : Char) : Step (u ++ x :: v) (u ++ y :: v)
  | ins (u v : List Char) (x : Char) : Step (u ++ v) (u ++ x :: v)
  | del (u v : List Char) (x : Char) : Step (u ++ x :: v) (u ++ v)

/-- `EditsTo n a b` holds when `a` can be transformed into `b` by exactly `n`
single-character edits. -/
inductive EditsTo : ℕ → List Char → List Char → Prop
  | refl (a : List Char) : EditsTo 0 a a
  | step {n : ℕ} {a b c : List Char} : Step a b → EditsTo n b c → EditsTo (n + 1) a c

lemma levRec_nil_right (a : List Char) : levRec a [] = a.length := by
  cases a <;> simp [levRec]

lemma levRec_self (a : List Char) : levRec a a = 0 := by
  induction a with
  | nil => simp [levRec]
  | cons x xs ih => simp [levRec, cost, ih]

lemma editsTo_trans {m n : ℕ} {a b c : List Char} (h₁ : EditsTo m a b) (h₂ : EditsTo n b c) :
    EditsTo (m + n) a c := by
  induction h₁ with
  | refl a => simpa using h₂
  | step s _ ih =>
      have := EditsTo.step s (ih h₂)
      simpa [Nat.succ_add] using this

lemma step_cons {a b : List Char} (c : Char) (h : Step a b) : Step (c :: a) (c :: b) := by
  cases h with
  | subst u v x y => exact Step.subst (c :: u) v x y
  | ins u v x => exact Step.ins (c :: u) v x
  | del u v x => exact Step.del (c :: u) v x

lemma editsTo_cons {n : ℕ} {a b : List Char} (c : Char) (h : EditsTo n a b) :
    EditsTo n (c :: a) (c :: b) := by
  induction h with
  | refl a => exact EditsTo.refl _
  | step s _ ih => exact EditsTo.step (step_cons c s) ih

lemma editsTo_nil (b : List Char) : EditsTo b.length [] b := by
  induction b with
  | nil => exact EditsTo.refl _
  | cons y ys ih =>
      exact EditsTo.step (Step.ins [] [] y) (editsTo_cons y ih)

lemma editsTo_to_nil (a : List Char) : EditsTo a.length a [] := by
  induction a with
  | nil => exact EditsTo.refl _
  | cons x xs ih =>
      exact EditsTo.step (Step.del [] xs x) ih

/-- Upper bound: a sequence of exactly `levRec a b` edits transforms `a`
into `b`. -/
lemma editsTo_levRec : ∀ a b : List Char, EditsTo (levRec a b) a b := by
  intro a b
  induction a, b using levRec.induct with
  | case1 ys => simpa [levRec] using editsTo_nil ys
  | case2 x xs => simpa [levRec] using editsTo_to_nil (x :: xs)
  | case3 x xs y ys ih1 ih2 ih3 =>
      rcases Nat.lt_trichotomy (levRec xs (y :: ys) + 1)
          (min (levRec (x :: xs) ys + 1) (levRec xs ys + cost x y)) with h | h | h
      · have hmin : levRec (x :: xs) (y :: ys) = levRec xs (y :: ys) + 1 := by
          simp only [levRec]; omega
        rw [hmin]
        exact EditsTo.step (Step.del [] xs x) ih1
      · have hmin : levRec (x :: xs) (y :: ys) = levRec xs (y :: ys) + 1 := by
          simp only [levRec]; omega
        rw [hmin]
        exact EditsTo.step (Step.del [] xs x) ih1
      · rcases Nat.le_total (levRec (x :: xs) ys + 1) (levRec xs ys + cost x y) with h2 | h2
        · have hmin : levRec (x :: xs) (y :: ys) = levRec (x :: xs) ys + 1 := by
            simp only [levRec]; omega
          rw [hmin]
          exact editsTo_trans ih2 (EditsTo.step (Step.ins [] ys y) (EditsTo.refl _))
        · by_cases hxy : x = y
          · have hc : cost x y = 0 := by simp [cost, hxy]
            have hmin : levRec (x :: xs) (y :: ys) = levRec xs ys := by
              simp only [levRec]; omega
            rw [hmin, hxy]
            exact editsTo_cons y ih3
          · have hc : cost x y = 1 := by simp [cost, hxy]
            have hmin : levRec (x :: xs) (y :: ys) = levRec xs ys + 1 := by
              simp only [levRec]; omega
            rw [hmin]
            exact EditsTo.step (Step.subst [] xs x y) (editsTo_cons y ih3)

lemma cost_le_one (x y : Char) : cost x y ≤ 1 := by
  unfold cost; split <;> omega

lemma levRec_le_ins_right (v : List Char) (y : Char) (ys : List Char) :
    levRec v (y :: ys) ≤ levRec v ys + 1 := by
  cases v with
  | nil => simp [levRec]
  | cons c cs => simp only [levRec]; omega

lemma levRec_del_head (x : Char) (v w : List Char) :
    levRec (x :: v) w ≤ levRec v w + 1 := by
  cases w with
  | nil => simp [levRec, levRec_nil_right]
  | cons y ys => simp only [levRec]; omega

lemma levRec_ins_head (x : Char) (v w : List Char) :
    levRec v w ≤ levRec (x :: v) w + 1 := by
  induction w with
  | nil => simp only [levRec_nil_right, List.length_cons]; omega
  | cons y ys ih =>
      have h2 := levRec_le_ins_right v y ys
      simp only [levRec]; omega

lemma levRec_subst_head (x y : Char) (v w : List Char) :
    levRec (x :: v) w ≤ levRec (y :: v) w + 1 := by
  induction w with
  | nil => simp [levRec]
  | cons z zs ih =>
      have hc1 := cost_le_one x z
      simp only [levRec]; omega

lemma levRec_cons_le (c : Char) (p q : List Char)
    (H : ∀ w, levRec p w ≤ levRec q w + 1) (Hlen : p.length ≤ q.length + 1) :
    ∀ w, levRec (c :: p) w ≤ levRec (c :: q) w + 1 := by
  intro w
  induction w with
  | nil => simp only [levRec]; omega
  | cons y ys ih =>
      have h1 := H (y :: ys)
      have h2 := H ys
      simp only [levRec]; omega

lemma levRec_del_le (u : List Char) (x : Char) (v w : List Char) :
    levRec (u ++ x :: v) w ≤ levRec (u ++ v) w + 1 := by
  induction u generalizing w with
  | nil => simpa using levRec_del_head x v w
  | cons c u ih =>
      simpa using levRec_cons_le c (u ++ x :: v) (u ++ v) (fun w => by simpa using ih (w := w))
        (by simp only [List.length_append, List.length_cons]; omega) w

lemma levRec_ins_le (u : List Char) (x : Char) (v w : List Char) :
    levRec (u ++ v) w ≤ levRec (u ++ x :: v) w + 1 := by
  induction u generalizing w with
  | nil => simpa using levRec_ins_head x v w
  | cons c u ih =>
      simpa using levRec_cons_le c (u ++ v) (u ++ x :: v) (fun w => by simpa using ih (w := w))
        (by simp only [List.length_append, List.length_cons]; omega) w

lemma levRec_subst_le (u : List Char) (x y : Char) (v w : List Char) :
    levRec (u ++ x :: v) w ≤ levRec (u ++ y :: v) w + 1 := by
  induction u generalizing w with
  | nil => simpa using levRec_subst_head x y v w
  | cons c u ih =>
      simpa using levRec_cons_le c (u ++ x :: v) (u ++ y :: v) (fun w => by simpa using ih (w := w))
        (by simp) w

lemma levRec_step_le {a b : List Char} (h : Step a b) (c : List Char) :
    levRec a c ≤ levRec b c + 1 := by
  cases h with
  | subst u v x y => exact levRec_subst_le u x y v c
  | ins u v x => exact levRec_ins_le u x v c
  | del u v x => exact levRec_del_le u x v c

/-- Lower bound: no sequence of fewer than `levRec a b` edits transforms `a`
into `b`. -/
lemma levRec_le_of_editsTo {n : ℕ} {a b : List Char} (h : EditsTo n a b) :
    levRec a b ≤ n := by
  induction h with
  | refl a => simp [levRec_self]
  | @step n a b c s h ih =>
      have h2 := levRec_step_le s c
      omega

/-! ### The DP matrix computes `levRec` of the reversed strings

`rowOf u w bs` is the specification value of one DP row: the entries
`levRec u ((bs.take j).reverse ++ w)` for `j = 0 .. |bs|`, written as a
recursion that mirrors `rowTail`. -/

/-- Specification value of a DP row. -/
def rowOf (u : List Char) : List Char → List Char → List ℕ
  | w, [] => [levRec u w]
  | w, y :: ys => levRec u w :: rowOf u (y :: w) ys

lemma rowOf_cons (u w : List Char) (bs : List Char) :
    rowOf u w bs = levRec u w :: (rowOf u w bs).tail := by
  cases bs <;> rfl

lemma rowOf_headD (u w : List Char) (bs : List Char) :
    (rowOf u w bs).headD 0 = levRec u w := by
  cases bs <;> rfl

lemma rowTail_rowOf (bs : List Char) : ∀ (u w : List Char) (x : Char),
    rowTail x bs (rowOf u w bs) (levRec (x :: u) w) = (rowOf (x :: u) w bs).tail := by
  induction bs with
  | nil => intro u w x; rfl
  | cons y ys ih =>
      intro u w x
      have hlev : levRec (x :: u) (y :: w)
          = min ((rowOf u (y :: w) ys).headD 0 + 1)
              (min (levRec (x :: u) w + 1) (levRec u w + cost x y)) := by
        rw [rowOf_headD]
        simp only [levRec]
      calc rowTail x (y :: ys) (rowOf u w (y :: ys)) (levRec (x :: u) w)
          = (min ((rowOf u (y :: w) ys).headD 0 + 1)
              (min (levRec (x :: u) w + 1) (levRec u w + cost x y))) ::
            rowTail x ys (rowOf u (y :: w) ys)
              (min ((rowOf u (y :: w) ys).headD 0 + 1)
                (min (levRec (x :: u) w + 1) (levRec u w + cost x y))) := rfl
        _ = levRec (x :: u) (y :: w) :: rowTail x ys (rowOf u (y :: w) ys) (levRec (x :: u) (y :: w)) := by
            rw [hlev]
        _ = levRec (x :: u) (y :: w) :: (rowOf (x :: u) (y :: w) ys).tail := by
            rw [ih]
        _ = rowOf (x :: u) (y :: w) ys := (rowOf_cons _ _ _).symm
        _ = (rowOf (x :: u) w (y :: ys)).tail := rfl

lemma nextRow_rowOf (x : Char) (b u : List Char) :
    nextRow x b (rowOf u [] b) (u.length + 1) = rowOf (x :: u) [] b := by
  have h1 : levRec (x :: u) ([] : List Char) = u.length + 1 := by simp [levRec]
  calc nextRow x b (rowOf u [] b) (u.length + 1)
      = levRec (x :: u) [] :: rowTail x b (rowOf u [] b) (levRec (x :: u) []) := by
        rw [h1]; rfl
    _ = levRec (x :: u) [] :: (rowOf (x :: u) [] b).tail := by rw [rowTail_rowOf]
    _ = rowOf (x :: u) [] b := (rowOf_cons _ _ _).symm

lemma levRows_rowOf (b : List Char) : ∀ (xs u : List Char),
    levRows b xs (u.length + 1) (rowOf u [] b) = rowOf (xs.reverse ++ u) [] b := by
  intro xs
  induction xs with
  | nil => intro u; simp [levRows]
  | cons x xs ih =>
      intro u
      have : levRows b (x :: xs) (u.length + 1) (rowOf u [] b)
          = levRows b xs ((x :: u).length + 1) (rowOf (x :: u) [] b) := by
        simp only [levRows, nextRow_rowOf, List.length_cons]
      rw [this, ih (x :: u)]
      simp

lemma rowOf_nil_left (bs : List Char) : ∀ w : List Char,
    rowOf [] w bs = List.range' w.length (bs.length + 1) := by
  induction bs with
  | nil => intro w; simp [rowOf, levRec, List.range'_one]
  | cons y ys ih =>
      intro w
      have h1 : rowOf [] w (y :: ys) = w.length :: List.range' (w.length + 1) (ys.length + 1) := by
        have h2 := ih (y :: w)
        simp only [List.length_cons] at h2
        simp [rowOf, levRec, h2]
      rw [h1, List.length_cons]
      exact (List.range'_succ w.length (ys.length + 1) 1).symm

lemma range_rowOf (b : List Char) :
    List.range (b.length + 1) = rowOf ([] : List Char) [] b := by
  rw [rowOf_nil_left b []]
  simpa using List.range_eq_range' (b.length + 1)

lemma rowOf_getD (bs : List Char) : ∀ u w : List Char,
    (rowOf u w bs).getD bs.length 0 = levRec u (bs.reverse ++ w) := by
  induction bs with
  | nil => intro u w; simp [rowOf]
  | cons y ys ih =>
      intro u w
      have h1 : (rowOf u w (y :: ys)).getD (y :: ys).length 0
          = (rowOf u (y :: w) ys).getD ys.length 0 := by
        simp [rowOf]
      rw [h1, ih u (y :: w)]
      congr 1
      simp

/-- The source's DP matrix computes the textbook recurrence on the reversed
strings. -/
lemma levenshteinDistance_eq_levRec (a b : List Char) :
    levenshteinDistance a b = levRec a.reverse b.reverse := by
  unfold levenshteinDistance
  rw [range_rowOf]
  have h := levRows_rowOf b a []
  simp only [List.length_nil, List.append_nil] at h
  rw [h, rowOf_getD]
  simp

lemma step_reverse {a b : List Char} (h : Step a b) : Step a.reverse b.reverse := by
  cases h with
  | subst u v x y =>
      have h1 : (u ++ x :: v).reverse = v.reverse ++ x :: u.reverse := by simp
      have h2 : (u ++ y :: v).reverse = v.reverse ++ y :: u.reverse := by simp
      rw [h1, h2]; exact Step.subst _ _ x y
  | ins u v x =>
      have h1 : (u ++ v).reverse = v.reverse ++ u.reverse := by simp
      have h2 : (u ++ x :: v).reverse = v.reverse ++ x :: u.reverse := by simp
      rw [h1, h2]; exact Step.ins _ _ x
  | del u v x =>
      have h1 : (u ++ x :: v).reverse = v.reverse ++ x :: u.reverse := by simp
      have h2 : (u ++ v).reverse = v.reverse ++ u.reverse := by simp
      rw [h1, h2]; exact Step.del _ _ x

lemma editsTo_reverse {n : ℕ} {a b : List Char} (h : EditsTo n a b) :
    EditsTo n a.reverse b.reverse := by
  induction h with
  | refl a => exact EditsTo.refl _
  | step s _ ih => exact EditsTo.step (step_reverse s) ih

/-- The source's `levenshteinDistance` is exactly the least number of
single-character edits transforming `a` into `b`. -/
lemma levenshteinDistance_isLeast (a b : List Char) :
    IsLeast {n | EditsTo n a b} (levenshteinDistance a b) := by
  rw [levenshteinDistance_eq_levRec]
  constructor
  · have h := editsTo_levRec a.reverse b.reverse
    have h2 := editsTo_reverse h
    simpa using h2
  · intro n hn
    exact levRec_le_of_editsTo (editsTo_reverse hn)

/-! ## Data model and effect environment for the handler

`NewsItemWithBlobUrl` models the objects the scan operates on (dedupe.ts
lines 39-41): the fields of `NewsItem` that the handler reads (`heading`,
`lastUpdated` as the numeric value of `new Date(...)`, `source.url`) plus the
optional `_blobUrl` captured at load time.  The `id` field models JS object
identity (each object pushed by the loader is a distinct reference); it is
what the event log records.

`Env` supplies the outcomes of the external blob-store calls made while a
pair is being resolved: whether the `n`-th `deleteBlob` call throws, the
result or failure of the persona-cache `list` call, whether deleting an
individual persona blob throws, and the `encodeURIComponent` function. -/

/-- A loaded news item together with its storage handle (`_blobUrl`). -/
structure NewsItemWithBlobUrl where
  id : ℕ
  heading : List Char
  lastUpdated : ℤ
  sourceUrl : List Char
  blobUrl : Option (List Char)
deriving DecidableEq, Repr

instance : Inhabited NewsItemWithBlobUrl := ⟨⟨0, [], 0, [], none⟩⟩

/-- A blob returned by `list` on the persona-cache namespace
(dedupe.ts lines 118-126): its `pathname` and its `url`. -/
structure BlobRef where
  pathname : List Char
  url : List Char
deriving DecidableEq, Repr

/-- JS `String.prototype.includes`: does `needle` occur as a contiguous
substring of the first argument? -/
def hasSub : List Char → List Char → Bool
  | [], needle => needle.isEmpty
  | c :: t, needle => needle.isPrefixOf (c :: t) || hasSub t needle

/-- Outcomes of the external calls made during the scan. -/
structure Env where
  delFails : ℕ → Bool
  personaListFails : Bool
  personaBlobs : List BlobRef
  personaDelFails : List Char → Bool
  enc : List Char → List Char

/-- Observable actions of one deduplication run, in execution order. -/
inductive Event where
  | compared (id1 id2 : ℕ) (sim : ℚ)
  | noBlobUrl (id : ℕ)
  | primaryDeleted (id : ℕ) (url : List Char)
  | primaryDeleteFailed (id : ℕ) (url : List Char)
  | personaDeleted (url : List Char)
  | personaCleanupFailed
  | removed (id : ℕ)
deriving DecidableEq, Repr

/-- State returned by the scan loops: the working sequence, `deletedCount`,
the number of `deleteBlob` calls made so far, and the event log produced. -/
structure RunResult where
  items : List NewsItemWithBlobUrl
  deleted : ℕ
  attempts : ℕ
  log : List Event
deriving Repr

/-- The resolution policy of dedupe.ts line 101:
`new Date(item1.lastUpdated) < new Date(item2.lastUpdated) ? item1 : item2`. -/
def itemToDeleteOf (item1 item2 : NewsItemWithBlobUrl) : NewsItemWithBlobUrl :=
  if item1.lastUpdated < item2.lastUpdated then item1 else item2

/-- The deletion loop over matching persona blobs (dedupe.ts lines 128-131):
deletes in order until one `del` throws; the exception is caught by the
enclosing catch (line 132), which logs and swallows it. -/
def deleteVibeBlobs (env : Env) : List BlobRef → List Event
  | [] => []
  | b :: rest =>
      if env.personaDelFails b.url then [Event.personaCleanupFailed]
      else Event.personaDeleted b.url :: deleteVibeBlobs env rest

/-- The best-effort persona-cache cleanup (dedupe.ts lines 116-134): list the
persona namespace, keep the blobs whose pathname contains the URL-encoded
source URL, delete each; any failure is caught and logged. -/
def personaCleanup (env : Env) (sourceUrl : List Char) : List Event :=
  if env.personaListFails then [Event.personaCleanupFailed]
  else deleteVibeBlobs env
    (env.personaBlobs.filter (fun b => hasSub b.pathname (env.enc sourceUrl)))

/-! ## The nested pairwise scan (dedupe.ts lines 90-144)

`innerLoop env i fuel items j deleted attempts` runs the inner `for` loop of
the handler from index `j`.  Each iteration follows the source line by line:

* guard `j < newsItems.length` (line 91);
* `item1 := newsItems[i]`, `item2 := newsItems[j]`, similarity on headings
  (lines 92-95);
* on `sim > LEVENSHTEIN_THRESHOLD` (line 97): pick the item to delete
  (line 101); if it has no blob URL, log and `continue` (lines 106-109);
* `deleteBlob` (line 112): if it throws, the catch on line 139 logs and the
  loop continues with the next `j`; on success `deletedCount++` (line 113),
  the persona cleanup runs (lines 116-134), then
  `newsItems.splice(newsItems.indexOf(itemToDelete), 1)` and `j--`
  (lines 137-138), so the next iteration re-reads index `j`.

JS `indexOf` returns `-1` when the element is not found and `splice(-1, 1)`
removes the last element; the embedding mirrors this exactly.  The `fuel`
argument makes the recursion structural; each iteration strictly decreases
`items.length - j`, and `fuel` is chosen large enough that it never runs out
(`innerLoop_stable` below proves the result is fuel-independent from that
point on). -/

def innerLoop (env : Env) (i : ℕ) : ℕ → List NewsItemWithBlobUrl → ℕ → ℕ → ℕ → RunResult
  | 0, items, _, deleted, attempts => ⟨items, deleted, attempts, []⟩
  | fuel + 1, items, j, deleted, attempts =>
    if j < items.length then
      let item1 := items.getD i default
      let item2 := items.getD j default
      let sim := similarity item1.heading item2.heading
      if sim > LEVENSHTEIN_THRESHOLD then
        let itemToDelete := itemToDeleteOf item1 item2
        match itemToDelete.blobUrl with
        | none =>
          let r := innerLoop env i fuel items (j + 1) deleted attempts
          { r with log := Event.compared item1.id item2.id sim ::
              Event.noBlobUrl itemToDelete.id :: r.log }
        | some url =>
          if env.delFails attempts then
            let r := innerLoop env i fuel items (j + 1) deleted (attempts + 1)
            { r with log := Event.compared item1.id item2.id sim ::
                Event.primaryDeleteFailed itemToDelete.id url :: r.log }
          else
            let idx := items.indexOf itemToDelete
            let items2 := if idx < items.length then items.eraseIdx idx
              else items.eraseIdx (items.length - 1)
            let r := innerLoop env i fuel items2 j (deleted + 1) (attempts + 1)
            { r with log := Event.compared item1.id item2.id sim ::
                Event.primaryDeleted itemToDelete.id url ::
                (personaCleanup env itemToDelete.sourceUrl ++
                  Event.removed itemToDelete.id :: r.log) }
      else
        let r := innerLoop env i fuel items (j + 1) deleted attempts
        { r with log := Event.compared item1.id item2.id sim :: r.log }
    else ⟨items, deleted, attempts, []⟩

/-- The outer `for` loop of dedupe.ts line 90: while `i < newsItems.length`,
run the inner loop from `j = i + 1` on the current working sequence, then
advance `i`. -/
def outerLoop (env : Env) : ℕ → ℕ → List NewsItemWithBlobUrl → ℕ → ℕ → RunResult
  | 0, _, items, deleted, attempts => ⟨items, deleted, attempts, []⟩
  | fuel + 1, i, items, deleted, attempts =>
    if i < items.length then
      let r := innerLoop env i (items.length + 1) items (i + 1) deleted attempts
      let r2 := outerLoop env fuel (i + 1) r.items r.deleted r.attempts
      { r2 with log := r.log ++ r2.log }
    else ⟨items, deleted, attempts, []⟩

/-- The full pairwise scan of the handler (dedupe.ts lines 88-144), started
with `deletedCount = 0`. -/
def runDedupe (env : Env) (items : List NewsItemWithBlobUrl) : RunResult :=
  outerLoop env (items.length + 1) 0 items 0 0

/-! ## Corpus loader (dedupe.ts lines 43-68) -/

/-- Outcome of fetching and parsing one stored global-news object:
a parsed `NewsItem` (its fields used by the handler), a non-ok HTTP response
(line 53), or a thrown fetch/parse error (line 63). -/
inductive FetchOutcome where
  | ok (heading : List Char) (lastUpdated : ℤ) (sourceUrl : List Char)
  | httpError (status : ℕ)
  | exn
deriving DecidableEq, Repr

/-- Whether a fetch outcome parsed successfully. -/
def FetchOutcome.isOk : FetchOutcome → Bool
  | .ok _ _ _ => true
  | _ => false

/-- One blob listed under `news/global/` together with its fetch outcome. -/
structure GlobalBlob where
  url : List Char
  outcome : FetchOutcome
deriving DecidableEq, Repr

/-- The loader's accumulation loop (dedupe.ts lines 50-66): failed fetches
and parse errors are logged and skipped (`continue` / catch), successful ones
are pushed with `_blobUrl := blob.url`.  The counter assigns each pushed
object its identity, in creation order. -/
def loadItems : ℕ → List GlobalBlob → List NewsItemWithBlobUrl
  | _, [] => []
  | k, b :: rest =>
      match b.outcome with
      | .ok h lu su => ⟨k, h, lu, su, some b.url⟩ :: loadItems (k + 1) rest
      | _ => loadItems k rest

/-- `getAllNewsItems` (dedupe.ts lines 43-68), given the listed blobs and
their fetch outcomes. -/
def getAllNewsItems (blobs : List GlobalBlob) : List NewsItemWithBlobUrl :=
  loadItems 0 blobs

/-! ## HTTP surface (dedupe.ts lines 81-151) -/

/-- A JSON value appearing in the handler's response bodies. -/
inductive JVal where
  | str (s : String)
  | num (n : ℕ)
deriving DecidableEq, Repr

/-- An HTTP response: status code and JSON object body (ordered key-value
pairs, as written in the source). -/
structure ApiResponse where
  status : ℕ
  body : List (String × JVal)
deriving Repr

/-- The exported `handler`.  `globalList` is the result of the `list` call on
`news/global/` inside `getAllNewsItems`: `none` models the call throwing
(caught by the catch on line 147, with `errMsg` the error's message). -/
def handler (method : String) (globalList : Option (List GlobalBlob)) (errMsg : String)
    (env : Env) : ApiResponse :=
  if method ≠ "POST" then ⟨405, [("message", JVal.str "Method Not Allowed")]⟩
  else
    match globalList with
    | none => ⟨500, [("message", JVal.str ("Deduplication failed: " ++ errMsg))]⟩
    | some blobs =>
        let r := runDedupe env (getAllNewsItems blobs)
        ⟨200, [("message", JVal.str "Deduplication complete."), ("deleted", JVal.num r.deleted)]⟩

/-! ## Log accounting helpers -/

/-- Number of successful primary deletions recorded in a log. -/
def countPrimaryDeleted : List Event → ℕ
  | [] => 0
  | Event.primaryDeleted _ _ :: rest => countPrimaryDeleted rest + 1
  | _ :: rest => countPrimaryDeleted rest

/-- Ids recorded by `removed` events (items spliced out of the working
sequence), in order. -/
def removedIdsOf : List Event → List ℕ
  | [] => []
  | Event.removed k :: rest => k :: removedIdsOf rest
  | _ :: rest => removedIdsOf rest

lemma countPrimaryDeleted_append (l1 l2 : List Event) :
    countPrimaryDeleted (l1 ++ l2) = countPrimaryDeleted l1 + countPrimaryDeleted l2 := by
  induction l1 with
  | nil => simp [countPrimaryDeleted]
  | cons e rest ih => cases e <;> simp [countPrimaryDeleted, ih] <;> omega

lemma removedIdsOf_append (l1 l2 : List Event) :
    removedIdsOf (l1 ++ l2) = removedIdsOf l1 ++ removedIdsOf l2 := by
  induction l1 with
  | nil => simp [removedIdsOf]
  | cons e rest ih => cases e <;> simp [removedIdsOf, ih]

/-- Every event emitted by the persona cleanup is a persona event. -/
lemma deleteVibeBlobs_events (env : Env) (l : List BlobRef) :
    ∀ e ∈ deleteVibeBlobs env l,
      e = Event.personaCleanupFailed ∨ ∃ url, e = Event.personaDeleted url := by
  induction l with
  | nil => simp [deleteVibeBlobs]
  | cons b rest ih =>
      intro e he
      simp only [deleteVibeBlobs] at he
      by_cases hb : env.personaDelFails b.url = true
      · rw [if_pos hb] at he
        simp at he
        exact Or.inl he
      · rw [if_neg hb] at he
        rcases List.mem_cons.mp he with h | h
        · exact Or.inr ⟨b.url, h⟩
        · exact ih e h

lemma personaCleanup_events (env : Env) (u : List Char) :
    ∀ e ∈ personaCleanup env u,
      e = Event.personaCleanupFailed ∨ ∃ url, e = Event.personaDeleted url := by
  intro e he
  unfold personaCleanup at he
  by_cases hl : env.personaListFails = true
  · rw [if_pos hl] at he; simp at he; exact Or.inl he
  · rw [if_neg hl] at he; exact deleteVibeBlobs_events env _ e he

lemma countPrimaryDeleted_eq_zero (l : List Event)
    (h : ∀ e ∈ l, e = Event.personaCleanupFailed ∨ ∃ url, e = Event.personaDeleted url) :
    countPrimaryDeleted l = 0 := by
  induction l with
  | nil => simp [countPrimaryDeleted]
  | cons e rest ih =>
      have hrest : countPrimaryDeleted rest = 0 := ih fun e2 he2 => h e2 (by simp [he2])
      rcases h e (by simp) with h1 | ⟨url, h1⟩ <;> subst h1 <;> simp [countPrimaryDeleted, hrest]

lemma removedIdsOf_eq_nil (l : List Event)
    (h : ∀ e ∈ l, e = Event.personaCleanupFailed ∨ ∃ url, e = Event.personaDeleted url) :
    removedIdsOf l = [] := by
  induction l with
  | nil => simp [removedIdsOf]
  | cons e rest ih =>
      have hrest : removedIdsOf rest = [] := ih fun e2 he2 => h e2 (by simp [he2])
      rcases h e (by simp) with h1 | ⟨url, h1⟩ <;> subst h1 <;> simp [removedIdsOf, hrest]

lemma countPrimaryDeleted_persona (env : Env) (u : List Char) :
    countPrimaryDeleted (personaCleanup env u) = 0 :=
  countPrimaryDeleted_eq_zero _ (personaCleanup_events env u)

lemma removedIdsOf_persona (env : Env) (u : List Char) :
    removedIdsOf (personaCleanup env u) = [] :=
  removedIdsOf_eq_nil _ (personaCleanup_events env u)

/-! ## Master invariants of the scan loops -/

lemma innerLoop_basic (env : Env) (i : ℕ) :
    ∀ (f : ℕ) (items : List NewsItemWithBlobUrl) (j d a : ℕ),
      List.Sublist (innerLoop env i f items j d a).items items ∧
      (innerLoop env i f items j d a).deleted
        = d + countPrimaryDeleted (innerLoop env i f items j d a).log ∧
      (innerLoop env i f items j d a).items.length
        + countPrimaryDeleted (innerLoop env i f items j d a).log = items.length := by
  intro f
  induction f with
  | zero => intro items j d a; simp [innerLoop, countPrimaryDeleted]
  | succ f ih =>
      intro items j d a
      by_cases hj : j < items.length
      · simp only [innerLoop, if_pos hj]
        by_cases hsim : similarity (items.getD i default).heading
            (items.getD j default).heading > LEVENSHTEIN_THRESHOLD
        · rw [if_pos hsim]
          cases hblob : (itemToDeleteOf (items.getD i default) (items.getD j default)).blobUrl with
          | none =>
              simp only []
              obtain ⟨h1, h2, h3⟩ := ih items (j + 1) d a
              exact ⟨h1, by simpa [countPrimaryDeleted] using h2,
                by simpa [countPrimaryDeleted] using h3⟩
          | some url =>
              simp only []
              by_cases hdel : env.delFails a = true
              · rw [if_pos hdel]
                obtain ⟨h1, h2, h3⟩ := ih items (j + 1) d (a + 1)
                exact ⟨h1, by simpa [countPrimaryDeleted] using h2,
                  by simpa [countPrimaryDeleted] using h3⟩
              · rw [if_neg hdel]
                set itemToDelete := itemToDeleteOf (items.getD i default) (items.getD j default)
                  with hitd
                set idx := items.indexOf itemToDelete with hidxdef
                set items2 := if idx < items.length then items.eraseIdx idx
                  else items.eraseIdx (items.length - 1) with hitems2
                have hlen2 : items2.length = items.length - 1 := by
                  rw [hitems2]
                  by_cases hidx : idx < items.length
                  · rw [if_pos hidx]; exact List.length_eraseIdx_of_lt hidx
                  · rw [if_neg hidx]
                    exact List.length_eraseIdx_of_lt (by omega)
                have hsub2 : List.Sublist items2 items := by
                  rw [hitems2]
                  by_cases hidx : idx < items.length
                  · rw [if_pos hidx]; exact List.eraseIdx_sublist items idx
                  · rw [if_neg hidx]; exact List.eraseIdx_sublist items (items.length - 1)
                obtain ⟨h1, h2, h3⟩ := ih items2 j (d + 1) (a + 1)
                refine ⟨h1.trans hsub2, ?_, ?_⟩
                · simp only [RunResult.mk.injEq]
                  simp [countPrimaryDeleted, countPrimaryDeleted_append,
                    countPrimaryDeleted_persona, h2]
                  omega
                · simp [countPrimaryDeleted, countPrimaryDeleted_append,
                    countPrimaryDeleted_persona]
                  omega
        · rw [if_neg hsim]
          obtain ⟨h1, h2, h3⟩ := ih items (j + 1) d a
          exact ⟨h1, by simpa [countPrimaryDeleted] using h2,
            by simpa [countPrimaryDeleted] using h3⟩
      · simp [innerLoop, if_neg hj, countPrimaryDeleted]

lemma outerLoop_basic (env : Env) :
    ∀ (f i : ℕ) (items : List NewsItemWithBlobUrl) (d a : ℕ),
      List.Sublist (outerLoop env f i items d a).items items ∧
      (outerLoop env f i items d a).deleted
        = d + countPrimaryDeleted (outerLoop env f i items d a).log ∧
      (outerLoop env f i items d a).items.length
        + countPrimaryDeleted (outerLoop env f i items d a).log = items.length := by
  intro f
  induction f with
  | zero => intro i items d a; simp [outerLoop, countPrimaryDeleted]
  | succ f ih =>
      intro i items d a
      by_cases hi : i < items.length
      · simp only [outerLoop, if_pos hi]
        obtain ⟨g1, g2, g3⟩ := innerLoop_basic env i (items.length + 1) items (i + 1) d a
        obtain ⟨h1, h2, h3⟩ := ih (i + 1)
          (innerLoop env i (items.length + 1) items (i + 1) d a).items
          (innerLoop env i (items.length + 1) items (i + 1) d a).deleted
          (innerLoop env i (items.length + 1) items (i + 1) d a).attempts
        refine ⟨h1.trans g1, ?_, ?_⟩ <;>
          simp only [countPrimaryDeleted_append] <;> omega
      · simp [outerLoop, if_neg hi, countPrimaryDeleted]

/-- Top-level form of the basic invariants: the scan only removes items, its
reported count is the number of successful primary deletions in the log, and
each successful primary deletion removes exactly one item. -/
lemma runDedupe_basic (env : Env) (items : List NewsItemWithBlobUrl) :
    List.Sublist (runDedupe env items).items items ∧
    (runDedupe env items).deleted = countPrimaryDeleted (runDedupe env items).log ∧
    (runDedupe env items).items.length + countPrimaryDeleted (runDedupe env items).log
      = items.length := by
  obtain ⟨h1, h2, h3⟩ := outerLoop_basic env (items.length + 1) 0 items 0 0
  exact ⟨h1, by simpa using h2, h3⟩

/-! ## Log checkers

`comparedAfterRemoved S log` scans a log and returns `true` exactly when some
`compared` event mentions an id that was removed from the working sequence by
an earlier `removed` event (or was in the initial set `S`).

`personaOutside inR log` returns `true` exactly when some persona-cache
cleanup event occurs outside a primary-deletion resolution span (the events
between a `primaryDeleted` and its `removed`); `inR` says whether the scan
starts inside such a span. -/

def comparedAfterRemoved : List ℕ → List Event → Bool
  | _, [] => false
  | S, Event.compared i1 i2 _ :: rest =>
      S.contains i1 || S.contains i2 || comparedAfterRemoved S rest
  | S, Event.removed k :: rest => comparedAfterRemoved (k :: S) rest
  | S, _ :: rest => comparedAfterRemoved S rest

def personaOutside : Bool → List Event → Bool
  | _, Event.primaryDeleted _ _ :: rest => personaOutside true rest
  | _, Event.removed _ :: rest => personaOutside false rest
  | inR, Event.personaDeleted _ :: rest => !inR || personaOutside inR rest
  | inR, Event.personaCleanupFailed :: rest => !inR || personaOutside inR rest
  | _, Event.compared _ _ _ :: rest => personaOutside false rest
  | _, Event.noBlobUrl _ :: rest => personaOutside false rest
  | _, Event.primaryDeleteFailed _ _ :: rest => personaOutside false rest
  | _, [] => false

/-- The resolution-span flag after scanning a log. -/
def personaFlagAfter : Bool → List Event → Bool
  | b, [] => b
  | _, Event.primaryDeleted _ _ :: rest => personaFlagAfter true rest
  | _, Event.removed _ :: rest => personaFlagAfter false rest
  | b, Event.personaDeleted _ :: rest => personaFlagAfter b rest
  | b, Event.personaCleanupFailed :: rest => personaFlagAfter b rest
  | _, Event.compared _ _ _ :: rest => personaFlagAfter false rest
  | _, Event.noBlobUrl _ :: rest => personaFlagAfter false rest
  | _, Event.primaryDeleteFailed _ _ :: rest => personaFlagAfter false rest

lemma comparedAfterRemoved_congr : ∀ (l : List Event) (S S' : List ℕ),
    (∀ x, x ∈ S ↔ x ∈ S') →
    comparedAfterRemoved S l = comparedAfterRemoved S' l := by
  intro l
  induction l with
  | nil => intro S S' _; rfl
  | cons e rest ih =>
      intro S S' h
      cases e with
      | compared i1 i2 s =>
          have h1 : S.contains i1 = S'.contains i1 := by
            rw [Bool.eq_iff_iff]; simp only [List.elem_iff]; exact h i1
          have h2 : S.contains i2 = S'.contains i2 := by
            rw [Bool.eq_iff_iff]; simp only [List.elem_iff]; exact h i2
          simp only [comparedAfterRemoved, h1, h2, ih S S' h]
      | removed k =>
          simp only [comparedAfterRemoved]
          exact ih (k :: S) (k :: S') (by intro x; simp [h x])
      | noBlobUrl k => simp only [comparedAfterRemoved]; exact ih S S' h
      | primaryDeleted k u => simp only [comparedAfterRemoved]; exact ih S S' h
      | primaryDeleteFailed k u => simp only [comparedAfterRemoved]; exact ih S S' h
      | personaDeleted u => simp only [comparedAfterRemoved]; exact ih S S' h
      | personaCleanupFailed => simp only [comparedAfterRemoved]; exact ih S S' h

lemma comparedAfterRemoved_append : ∀ (l1 l2 : List Event) (S : List ℕ),
    comparedAfterRemoved S (l1 ++ l2)
      = (comparedAfterRemoved S l1
          || comparedAfterRemoved (removedIdsOf l1 ++ S) l2) := by
  intro l1
  induction l1 with
  | nil => intro l2 S; simp [comparedAfterRemoved, removedIdsOf]
  | cons e rest ih =>
      intro l2 S
      cases e with
      | compared i1 i2 s =>
          simp only [List.cons_append, comparedAfterRemoved, removedIdsOf, List.append_eq,
            ih, Bool.or_assoc]
      | removed k =>
          simp only [List.cons_append, comparedAfterRemoved, removedIdsOf, List.append_eq, ih]
          congr 1
          refine comparedAfterRemoved_congr l2 _ _ ?_
          intro x
          simp only [List.mem_append, List.mem_cons]
          tauto
      | noBlobUrl k =>
          simpa [comparedAfterRemoved, removedIdsOf, List.append_eq] using ih l2 S
      | primaryDeleted k u =>
          simpa [comparedAfterRemoved, removedIdsOf, List.append_eq] using ih l2 S
      | primaryDeleteFailed k u =>
          simpa [comparedAfterRemoved, removedIdsOf, List.append_eq] using ih l2 S
      | personaDeleted u =>
          simpa [comparedAfterRemoved, removedIdsOf, List.append_eq] using ih l2 S
      | personaCleanupFailed =>
          simpa [comparedAfterRemoved, removedIdsOf, List.append_eq] using ih l2 S

lemma comparedAfterRemoved_neutral (l1 : List Event)
    (h : ∀ e ∈ l1, e = Event.personaCleanupFailed ∨ ∃ url, e = Event.personaDeleted url)
    (S : List ℕ) (l2 : List Event) :
    comparedAfterRemoved S (l1 ++ l2) = comparedAfterRemoved S l2 := by
  induction l1 with
  | nil => simp
  | cons e rest ih =>
      have hrest : ∀ e2 ∈ rest,
          e2 = Event.personaCleanupFailed ∨ ∃ url, e2 = Event.personaDeleted url :=
        fun e2 he2 => h e2 (List.mem_cons_of_mem _ he2)
      rcases h e (by simp) with h1 | ⟨url, h1⟩ <;> subst h1 <;>
        simpa [comparedAfterRemoved] using ih hrest

lemma personaOutside_append : ∀ (l1 l2 : List Event) (b : Bool),
    personaOutside b (l1 ++ l2)
      = (personaOutside b l1 || personaOutside (personaFlagAfter b l1) l2) := by
  intro l1
  induction l1 with
  | nil => intro l2 b; simp [personaOutside, personaFlagAfter]
  | cons e rest ih =>
      intro l2 b
      cases e <;>
        simp only [List.cons_append, personaOutside, personaFlagAfter, List.append_eq,
          ih, Bool.or_assoc]

lemma personaFlagAfter_append : ∀ (l1 l2 : List Event) (b : Bool),
    personaFlagAfter b (l1 ++ l2) = personaFlagAfter (personaFlagAfter b l1) l2 := by
  intro l1
  induction l1 with
  | nil => intro l2 b; simp [personaFlagAfter]
  | cons e rest ih =>
      intro l2 b
      cases e <;> simp only [List.cons_append, personaFlagAfter, List.append_eq, ih]

lemma personaOutside_neutral (l1 : List Event)
    (h : ∀ e ∈ l1, e = Event.personaCleanupFailed ∨ ∃ url, e = Event.personaDeleted url)
    (l2 : List Event) :
    personaOutside true (l1 ++ l2) = personaOutside true l2 := by
  induction l1 with
  | nil => simp
  | cons e rest ih =>
      have hrest : ∀ e2 ∈ rest,
          e2 = Event.personaCleanupFailed ∨ ∃ url, e2 = Event.personaDeleted url :=
        fun e2 he2 => h e2 (List.mem_cons_of_mem _ he2)
      rcases h e (by simp) with h1 | ⟨url, h1⟩ <;> subst h1 <;>
        simpa [personaOutside] using ih hrest

lemma itemToDeleteOf_cases (x y : NewsItemWithBlobUrl) :
    itemToDeleteOf x y = x ∨ itemToDeleteOf x y = y := by
  unfold itemToDeleteOf; split
  · exact Or.inl rfl
  · exact Or.inr rfl

lemma getD_mem (l : List NewsItemWithBlobUrl) (i : ℕ) (h : i < l.length) :
    l.getD i default ∈ l := by
  rw [List.getD_eq_getElem l default h]
  exact List.getElem_mem h

lemma innerLoop_removedClean (env : Env) (i : ℕ) :
    ∀ (f : ℕ) (items : List NewsItemWithBlobUrl) (j d a : ℕ) (S : List ℕ),
      i < j →
      (items.map NewsItemWithBlobUrl.id).Nodup →
      (∀ s ∈ S, ∀ it ∈ items, it.id ≠ s) →
      comparedAfterRemoved S (innerLoop env i f items j d a).log = false ∧
      (∀ s, (s ∈ S ∨ s ∈ removedIdsOf (innerLoop env i f items j d a).log) →
        ∀ it ∈ (innerLoop env i f items j d a).items, it.id ≠ s) := by
  intro f
  induction f with
  | zero =>
      intro items j d a S hij hnd hS
      refine ⟨rfl, ?_⟩
      intro s hs it hit
      rcases hs with hs | hs
      · exact hS s hs it hit
      · simp [innerLoop, removedIdsOf] at hs
  | succ f ih =>
      intro items j d a S hij hnd hS
      by_cases hj : j < items.length
      · have hm1 : items.getD i default ∈ items := getD_mem items i (by omega)
        have hm2 : items.getD j default ∈ items := getD_mem items j hj
        have hc1 : S.contains (items.getD i default).id = false := by
          have hnm : (items.getD i default).id ∉ S := fun hmem => hS _ hmem _ hm1 rfl
          exact Bool.eq_false_iff.mpr (fun hx => hnm (List.elem_iff.mp hx))
        have hc2 : S.contains (items.getD j default).id = false := by
          have hnm : (items.getD j default).id ∉ S := fun hmem => hS _ hmem _ hm2 rfl
          exact Bool.eq_false_iff.mpr (fun hx => hnm (List.elem_iff.mp hx))
        simp only [innerLoop, if_pos hj]
        by_cases hsim : similarity (items.getD i default).heading
            (items.getD j default).heading > LEVENSHTEIN_THRESHOLD
        · rw [if_pos hsim]
          cases hblob : (itemToDeleteOf (items.getD i default) (items.getD j default)).blobUrl with
          | none =>
              simp only []
              obtain ⟨r1, r2⟩ := ih items (j + 1) d a S (by omega) hnd hS
              refine ⟨?_, ?_⟩
              · simp only [comparedAfterRemoved, hc1, hc2, Bool.false_or]
                exact r1
              · intro s hs it hit
                refine r2 s ?_ it hit
                rcases hs with hs | hs
                · exact Or.inl hs
                · simp only [removedIdsOf] at hs
                  exact Or.inr hs
          | some url =>
              simp only []
              by_cases hdel : env.delFails a = true
              · rw [if_pos hdel]
                obtain ⟨r1, r2⟩ := ih items (j + 1) d (a + 1) S (by omega) hnd hS
                refine ⟨?_, ?_⟩
                · simp only [comparedAfterRemoved, hc1, hc2, Bool.false_or]
                  exact r1
                · intro s hs it hit
                  refine r2 s ?_ it hit
                  rcases hs with hs | hs
                  · exact Or.inl hs
                  · simp only [removedIdsOf] at hs
                    exact Or.inr hs
              · rw [if_neg hdel]
                have hmemd : itemToDeleteOf (items.getD i default) (items.getD j default) ∈ items := by
                  rcases itemToDeleteOf_cases (items.getD i default) (items.getD j default) with h | h <;>
                    rw [h] <;> assumption
                have hidx : List.indexOf (itemToDeleteOf (items.getD i default) (items.getD j default))
                    items < items.length := List.indexOf_lt_length.mpr hmemd
                rw [if_pos hidx, List.eraseIdx_indexOf_eq_erase]
                have hnodupItems : items.Nodup := List.Nodup.of_map NewsItemWithBlobUrl.id hnd
                have hsubE : List.Sublist
                    (items.erase (itemToDeleteOf (items.getD i default) (items.getD j default))) items :=
                  List.erase_sublist _ items
                have hnd2 : ((items.erase (itemToDeleteOf (items.getD i default)
                    (items.getD j default))).map NewsItemWithBlobUrl.id).Nodup :=
                  hnd.sublist (hsubE.map _)
                have hS2 : ∀ s ∈ (itemToDeleteOf (items.getD i default) (items.getD j default)).id :: S,
                    ∀ it ∈ items.erase (itemToDeleteOf (items.getD i default) (items.getD j default)),
                      it.id ≠ s := by
                  intro s hs it hit
                  rcases List.mem_cons.mp hs with hs | hs
                  · subst hs
                    intro heq
                    have hitmem : it ∈ items := hsubE.subset hit
                    have heqit : it = itemToDeleteOf (items.getD i default) (items.getD j default) :=
                      List.inj_on_of_nodup_map hnd hitmem hmemd heq
                    rw [heqit] at hit
                    exact hnodupItems.not_mem_erase hit
                  · exact hS s hs it (hsubE.subset hit)
                obtain ⟨r1, r2⟩ := ih
                  (items.erase (itemToDeleteOf (items.getD i default) (items.getD j default)))
                  j (d + 1) (a + 1)
                  ((itemToDeleteOf (items.getD i default) (items.getD j default)).id :: S)
                  hij hnd2 hS2
                refine ⟨?_, ?_⟩
                · simp only [comparedAfterRemoved, hc1, hc2, Bool.false_or]
                  rw [comparedAfterRemoved_neutral _ (personaCleanup_events env _) S _]
                  simp only [comparedAfterRemoved]
                  exact r1
                · intro s hs it hit
                  refine r2 s ?_ it hit
                  rcases hs with hs | hs
                  · exact Or.inl (List.mem_cons_of_mem _ hs)
                  · simp only [removedIdsOf, removedIdsOf_append, removedIdsOf_persona,
                      List.nil_append] at hs
                    rcases List.mem_cons.mp hs with hs | hs
                    · exact Or.inl (by rw [hs]; exact List.mem_cons_self _ _)
                    · exact Or.inr hs
        · rw [if_neg hsim]
          obtain ⟨r1, r2⟩ := ih items (j + 1) d a S (by omega) hnd hS
          refine ⟨?_, ?_⟩
          · simp only [comparedAfterRemoved, hc1, hc2, Bool.false_or]
            exact r1
          · intro s hs it hit
            refine r2 s ?_ it hit
            rcases hs with hs | hs
            · exact Or.inl hs
            · simp only [removedIdsOf] at hs
              exact Or.inr hs
      · simp only [innerLoop, if_neg hj]
        refine ⟨rfl, ?_⟩
        intro s hs it hit
        rcases hs with hs | hs
        · exact hS s hs it hit
        · simp [removedIdsOf] at hs

lemma outerLoop_removedClean (env : Env) :
    ∀ (f i : ℕ) (items : List NewsItemWithBlobUrl) (d a : ℕ) (S : List ℕ),
      (items.map NewsItemWithBlobUrl.id).Nodup →
      (∀ s ∈ S, ∀ it ∈ items, it.id ≠ s) →
      comparedAfterRemoved S (outerLoop env f i items d a).log = false ∧
      (∀ s, (s ∈ S ∨ s ∈ removedIdsOf (outerLoop env f i items d a).log) →
        ∀ it ∈ (outerLoop env f i items d a).items, it.id ≠ s) := by
  intro f
  induction f with
  | zero =>
      intro i items d a S hnd hS
      refine ⟨rfl, ?_⟩
      intro s hs it hit
      rcases hs with hs | hs
      · exact hS s hs it hit
      · simp [outerLoop, removedIdsOf] at hs
  | succ f ih =>
      intro i items d a S hnd hS
      by_cases hi : i < items.length
      · simp only [outerLoop, if_pos hi]
        obtain ⟨g1, g2⟩ := innerLoop_removedClean env i (items.length + 1) items (i + 1) d a S
          (by omega) hnd hS
        have rsub := (innerLoop_basic env i (items.length + 1) items (i + 1) d a).1
        have hnd2 : ((innerLoop env i (items.length + 1) items (i + 1) d a).items.map
            NewsItemWithBlobUrl.id).Nodup := hnd.sublist (rsub.map _)
        have hS2 : ∀ s ∈ removedIdsOf (innerLoop env i (items.length + 1) items (i + 1) d a).log ++ S,
            ∀ it ∈ (innerLoop env i (items.length + 1) items (i + 1) d a).items, it.id ≠ s := by
          intro s hs it hit
          rcases List.mem_append.mp hs with hs | hs
          · exact g2 s (Or.inr hs) it hit
          · exact g2 s (Or.inl hs) it hit
        obtain ⟨h1, h2⟩ := ih (i + 1)
          (innerLoop env i (items.length + 1) items (i + 1) d a).items
          (innerLoop env i (items.length + 1) items (i + 1) d a).deleted
          (innerLoop env i (items.length + 1) items (i + 1) d a).attempts
          (removedIdsOf (innerLoop env i (items.length + 1) items (i + 1) d a).log ++ S)
          hnd2 hS2
        refine ⟨?_, ?_⟩
        · rw [comparedAfterRemoved_append, g1, h1]
          rfl
        · intro s hs it hit
          rcases hs with hs | hs
          · exact h2 s (Or.inl (List.mem_append.mpr (Or.inr hs))) it hit
          · rw [removedIdsOf_append] at hs
            rcases List.mem_append.mp hs with hs | hs
            · exact h2 s (Or.inl (List.mem_append.mpr (Or.inl hs))) it hit
            · exact h2 s (Or.inr hs) it hit
      · simp only [outerLoop, if_neg hi]
        refine ⟨rfl, ?_⟩
        intro s hs it hit
        rcases hs with hs | hs
        · exact hS s hs it hit
        · simp [removedIdsOf] at hs

/-- With distinct item identities, no similarity comparison of the scan ever
involves an item that was already spliced out of the working sequence. -/
lemma runDedupe_removedClean (env : Env) (items : List NewsItemWithBlobUrl)
    (hnd : (items.map NewsItemWithBlobUrl.id).Nodup) :
    comparedAfterRemoved [] (runDedupe env items).log = false :=
  (outerLoop_removedClean env (items.length + 1) 0 items 0 0 [] hnd (by simp)).1

lemma personaFlagAfter_neutral (l1 : List Event)
    (h : ∀ e ∈ l1, e = Event.personaCleanupFailed ∨ ∃ url, e = Event.personaDeleted url)
    (l2 : List Event) :
    personaFlagAfter true (l1 ++ l2) = personaFlagAfter true l2 := by
  induction l1 with
  | nil => simp
  | cons e rest ih =>
      have hrest : ∀ e2 ∈ rest,
          e2 = Event.personaCleanupFailed ∨ ∃ url, e2 = Event.personaDeleted url :=
        fun e2 he2 => h e2 (List.mem_cons_of_mem _ he2)
      rcases h e (by simp) with h1 | ⟨url, h1⟩ <;> subst h1 <;>
        simpa [personaFlagAfter] using ih hrest

lemma innerLoop_personaOutside (env : Env) (i : ℕ) :
    ∀ (f : ℕ) (items : List NewsItemWithBlobUrl) (j d a : ℕ),
      personaOutside false (innerLoop env i f items j d a).log = false ∧
      personaFlagAfter false (innerLoop env i f items j d a).log = false := by
  intro f
  induction f with
  | zero => intro items j d a; exact ⟨rfl, rfl⟩
  | succ f ih =>
      intro items j d a
      by_cases hj : j < items.length
      · simp only [innerLoop, if_pos hj]
        by_cases hsim : similarity (items.getD i default).heading
            (items.getD j default).heading > LEVENSHTEIN_THRESHOLD
        · rw [if_pos hsim]
          cases hblob : (itemToDeleteOf (items.getD i default) (items.getD j default)).blobUrl with
          | none =>
              simp only []
              obtain ⟨r1, r2⟩ := ih items (j + 1) d a
              exact ⟨by simpa [personaOutside] using r1, by simpa [personaFlagAfter] using r2⟩
          | some url =>
              simp only []
              by_cases hdel : env.delFails a = true
              · rw [if_pos hdel]
                obtain ⟨r1, r2⟩ := ih items (j + 1) d (a + 1)
                exact ⟨by simpa [personaOutside] using r1, by simpa [personaFlagAfter] using r2⟩
              · rw [if_neg hdel]
                obtain ⟨r1, r2⟩ := ih
                  (if List.indexOf (itemToDeleteOf (items.getD i default) (items.getD j default))
                      items < items.length then
                    items.eraseIdx (List.indexOf
                      (itemToDeleteOf (items.getD i default) (items.getD j default)) items)
                  else items.eraseIdx (items.length - 1))
                  j (d + 1) (a + 1)
                refine ⟨?_, ?_⟩
                · simp only [personaOutside]
                  rw [personaOutside_neutral _ (personaCleanup_events env _)]
                  simpa [personaOutside] using r1
                · simp only [personaFlagAfter]
                  rw [personaFlagAfter_neutral _ (personaCleanup_events env _)]
                  simpa [personaFlagAfter] using r2
        · rw [if_neg hsim]
          obtain ⟨r1, r2⟩ := ih items (j + 1) d a
          exact ⟨by simpa [personaOutside] using r1, by simpa [personaFlagAfter] using r2⟩
      · simp only [innerLoop, if_neg hj]
        exact ⟨rfl, rfl⟩

lemma outerLoop_personaOutside (env : Env) :
    ∀ (f i : ℕ) (items : List NewsItemWithBlobUrl) (d a : ℕ),
      personaOutside false (outerLoop env f i items d a).log = false ∧
      personaFlagAfter false (outerLoop env f i items d a).log = false := by
  intro f
  induction f with
  | zero => intro i items d a; exact ⟨rfl, rfl⟩
  | succ f ih =>
      intro i items d a
      by_cases hi : i < items.length
      · simp only [outerLoop, if_pos hi]
        obtain ⟨g1, g2⟩ := innerLoop_personaOutside env i (items.length + 1) items (i + 1) d a
        obtain ⟨h1, h2⟩ := ih (i + 1)
          (innerLoop env i (items.length + 1) items (i + 1) d a).items
          (innerLoop env i (items.length + 1) items (i + 1) d a).deleted
          (innerLoop env i (items.length + 1) items (i + 1) d a).attempts
        refine ⟨?_, ?_⟩
        · rw [personaOutside_append, g1, g2, h1]
          rfl
        · rw [personaFlagAfter_append, g2, h2]
      · simp only [outerLoop, if_neg hi]
        exact ⟨rfl, rfl⟩

/-- Persona-cache cleanup events occur only between a successful primary
deletion and the corresponding removal from the working sequence. -/
lemma runDedupe_personaOutside (env : Env) (items : List NewsItemWithBlobUrl) :
    personaOutside false (runDedupe env items).log = false :=
  (outerLoop_personaOutside env (items.length + 1) 0 items 0 0).1

lemma innerLoop_envIndep (env env' : Env) (hde : env.delFails = env'.delFails) (i : ℕ) :
    ∀ (f : ℕ) (items : List NewsItemWithBlobUrl) (j d a : ℕ),
      (innerLoop env i f items j d a).items = (innerLoop env' i f items j d a).items ∧
      (innerLoop env i f items j d a).deleted = (innerLoop env' i f items j d a).deleted ∧
      (innerLoop env i f items j d a).attempts = (innerLoop env' i f items j d a).attempts := by
  intro f
  induction f with
  | zero => intro items j d a; exact ⟨rfl, rfl, rfl⟩
  | succ f ih =>
      intro items j d a
      by_cases hj : j < items.length
      · simp only [innerLoop, if_pos hj]
        by_cases hsim : similarity (items.getD i default).heading
            (items.getD j default).heading > LEVENSHTEIN_THRESHOLD
        · rw [if_pos hsim, if_pos hsim]
          cases hblob : (itemToDeleteOf (items.getD i default) (items.getD j default)).blobUrl with
          | none =>
              simp only []
              exact ih items (j + 1) d a
          | some url =>
              simp only []
              by_cases hdel : env.delFails a = true
              · have hdel' : env'.delFails a = true := by rw [← hde]; exact hdel
                rw [if_pos hdel, if_pos hdel']
                exact ih items (j + 1) d (a + 1)
              · have hdel' : ¬ env'.delFails a = true := by rw [← hde]; exact hdel
                rw [if_neg hdel, if_neg hdel']
                exact ih _ j (d + 1) (a + 1)
        · rw [if_neg hsim, if_neg hsim]
          exact ih items (j + 1) d a
      · simp [innerLoop, hj]

lemma outerLoop_envIndep (env env' : Env) (hde : env.delFails = env'.delFails) :
    ∀ (f i : ℕ) (items : List NewsItemWithBlobUrl) (d a : ℕ),
      (outerLoop env f i items d a).items = (outerLoop env' f i items d a).items ∧
      (outerLoop env f i items d a).deleted = (outerLoop env' f i items d a).deleted ∧
      (outerLoop env f i items d a).attempts = (outerLoop env' f i items d a).attempts := by
  intro f
  induction f with
  | zero => intro i items d a; exact ⟨rfl, rfl, rfl⟩
  | succ f ih =>
      intro i items d a
      by_cases hi : i < items.length
      · simp only [outerLoop, if_pos hi]
        obtain ⟨g1, g2, g3⟩ := innerLoop_envIndep env env' hde i (items.length + 1) items (i + 1) d a
        rw [g1, g2, g3]
        exact ih (i + 1) _ _ _
      · simp [outerLoop, hi]

/-- The working sequence the scan ends with, the reported count, and the
number of `deleteBlob` calls depend only on the corpus and on which
`deleteBlob` calls fail — never on the persona-cache environment. -/
lemma runDedupe_envIndep (env env' : Env) (hde : env.delFails = env'.delFails)
    (items : List NewsItemWithBlobUrl) :
    (runDedupe env items).items = (runDedupe env' items).items ∧
    (runDedupe env items).deleted = (runDedupe env' items).deleted ∧
    (runDedupe env items).attempts = (runDedupe env' items).attempts :=
  outerLoop_envIndep env env' hde (items.length + 1) 0 items 0 0

lemma innerLoop_keep (env : Env) (i : ℕ) :
    ∀ (f : ℕ) (items : List NewsItemWithBlobUrl) (j d a : ℕ), i < j →
      ∀ it ∈ items, it.id ∉ removedIdsOf (innerLoop env i f items j d a).log →
        it ∈ (innerLoop env i f items j d a).items := by
  intro f
  induction f with
  | zero => intro items j d a _ it hit _; exact hit
  | succ f ih =>
      intro items j d a hij it hit hnr
      by_cases hj : j < items.length
      · simp only [innerLoop, if_pos hj] at hnr ⊢
        by_cases hsim : similarity (items.getD i default).heading
            (items.getD j default).heading > LEVENSHTEIN_THRESHOLD
        · rw [if_pos hsim] at hnr ⊢
          cases hblob : (itemToDeleteOf (items.getD i default) (items.getD j default)).blobUrl with
          | none =>
              rw [hblob] at hnr
              simp only [] at hnr ⊢
              simp only [removedIdsOf] at hnr
              exact ih items (j + 1) d a (by omega) it hit hnr
          | some url =>
              rw [hblob] at hnr
              simp only [] at hnr ⊢
              by_cases hdel : env.delFails a = true
              · rw [if_pos hdel] at hnr ⊢
                simp only [removedIdsOf] at hnr
                exact ih items (j + 1) d (a + 1) (by omega) it hit hnr
              · rw [if_neg hdel] at hnr ⊢
                have hmemd : itemToDeleteOf (items.getD i default) (items.getD j default) ∈ items := by
                  rcases itemToDeleteOf_cases (items.getD i default) (items.getD j default) with h | h <;>
                    rw [h]
                  · exact getD_mem items i (by omega)
                  · exact getD_mem items j hj
                have hidx : List.indexOf (itemToDeleteOf (items.getD i default) (items.getD j default))
                    items < items.length := List.indexOf_lt_length.mpr hmemd
                rw [if_pos hidx, List.eraseIdx_indexOf_eq_erase] at hnr ⊢
                simp only [removedIdsOf, removedIdsOf_append, removedIdsOf_persona,
                  List.nil_append, List.mem_cons] at hnr
                push_neg at hnr
                obtain ⟨hne, hnr2⟩ := hnr
                have hitne : it ≠ itemToDeleteOf (items.getD i default) (items.getD j default) := by
                  intro heq; exact hne (by rw [heq])
                exact ih _ j (d + 1) (a + 1) hij it ((List.mem_erase_of_ne hitne).mpr hit) hnr2
        · rw [if_neg hsim] at hnr ⊢
          simp only [removedIdsOf] at hnr
          exact ih items (j + 1) d a (by omega) it hit hnr
      · simp only [innerLoop, if_neg hj]
        exact hit

lemma outerLoop_keep (env : Env) :
    ∀ (f i : ℕ) (items : List NewsItemWithBlobUrl) (d a : ℕ),
      ∀ it ∈ items, it.id ∉ removedIdsOf (outerLoop env f i items d a).log →
        it ∈ (outerLoop env f i items d a).items := by
  intro f
  induction f with
  | zero => intro i items d a it hit _; exact hit
  | succ f ih =>
      intro i items d a it hit hnr
      by_cases hi : i < items.length
      · simp only [outerLoop, if_pos hi] at hnr ⊢
        rw [removedIdsOf_append] at hnr
        simp only [List.mem_append] at hnr
        push_neg at hnr
        obtain ⟨hn1, hn2⟩ := hnr
        exact ih (i + 1) _ _ _ it
          (innerLoop_keep env i (items.length + 1) items (i + 1) d a (by omega) it hit hn1) hn2
      · simp only [outerLoop, if_neg hi]
        exact hit

/-- An item whose id is never logged as removed survives the whole run: in
particular an item whose primary deletion failed stays in the working
sequence. -/
lemma runDedupe_keep (env : Env) (items : List NewsItemWithBlobUrl) :
    ∀ it ∈ items, it.id ∉ removedIdsOf (runDedupe env items).log →
      it ∈ (runDedupe env items).items :=
  outerLoop_keep env (items.length + 1) 0 items 0 0

lemma innerLoop_noMatches (env : Env) (i : ℕ) :
    ∀ (f : ℕ) (items : List NewsItemWithBlobUrl) (j d a : ℕ), i < j →
      List.Pairwise (fun p q => similarity p.heading q.heading ≤ LEVENSHTEIN_THRESHOLD) items →
      (innerLoop env i f items j d a).items = items ∧
      (innerLoop env i f items j d a).deleted = d ∧
      (∀ e ∈ (innerLoop env i f items j d a).log, ∃ i1 i2 s, e = Event.compared i1 i2 s) := by
  intro f
  induction f with
  | zero => intro items j d a _ _; exact ⟨rfl, rfl, by simp [innerLoop]⟩
  | succ f ih =>
      intro items j d a hij hp
      by_cases hj : j < items.length
      · have hi : i < items.length := by omega
        have hle : similarity (items.getD i default).heading
            (items.getD j default).heading ≤ LEVENSHTEIN_THRESHOLD := by
          rw [List.getD_eq_getElem items default hi, List.getD_eq_getElem items default hj]
          exact List.pairwise_iff_getElem.mp hp i j hi hj hij
        simp only [innerLoop, if_pos hj]
        rw [if_neg (not_lt.mpr hle)]
        obtain ⟨h1, h2, h3⟩ := ih items (j + 1) d a (by omega) hp
        refine ⟨h1, h2, ?_⟩
        intro e he
        simp only [List.mem_cons] at he
        rcases he with he | he
        · exact ⟨_, _, _, he⟩
        · exact h3 e he
      · simp [innerLoop, hj]

lemma outerLoop_noMatches (env : Env) :
    ∀ (f i : ℕ) (items : List NewsItemWithBlobUrl) (d a : ℕ),
      List.Pairwise (fun p q => similarity p.heading q.heading ≤ LEVENSHTEIN_THRESHOLD) items →
      (outerLoop env f i items d a).items = items ∧
      (outerLoop env f i items d a).deleted = d ∧
      (∀ e ∈ (outerLoop env f i items d a).log, ∃ i1 i2 s, e = Event.compared i1 i2 s) := by
  intro f
  induction f with
  | zero => intro i items d a _; exact ⟨rfl, rfl, by simp [outerLoop]⟩
  | succ f ih =>
      intro i items d a hp
      by_cases hi : i < items.length
      · simp only [outerLoop, if_pos hi]
        obtain ⟨g1, g2, g3⟩ := innerLoop_noMatches env i (items.length + 1) items (i + 1) d a
          (by omega) hp
        have ha : (innerLoop env i (items.length + 1) items (i + 1) d a).items = items := g1
        obtain ⟨h1, h2, h3⟩ := ih (i + 1)
          (innerLoop env i (items.length + 1) items (i + 1) d a).items
          (innerLoop env i (items.length + 1) items (i + 1) d a).deleted
          (innerLoop env i (items.length + 1) items (i + 1) d a).attempts
          (by rw [ha]; exact hp)
        refine ⟨by rw [h1, ha], by rw [h2, g2], ?_⟩
        intro e he
        simp only [List.mem_append] at he
        rcases he with he | he
        · exact g3 e he
        · exact h3 e he
      · simp [outerLoop, hi]

/-- If every pair of distinct items in scan order has similarity at most the
threshold, the scan changes nothing: the working sequence is returned as is,
the count is zero, and the log holds similarity comparisons only. -/
lemma runDedupe_noMatches (env : Env) (items : List NewsItemWithBlobUrl)
    (hp : List.Pairwise (fun p q => similarity p.heading q.heading ≤ LEVENSHTEIN_THRESHOLD) items) :
    (runDedupe env items).items = items ∧
    (runDedupe env items).deleted = 0 ∧
    (∀ e ∈ (runDedupe env items).log, ∃ i1 i2 s, e = Event.compared i1 i2 s) :=
  outerLoop_noMatches env (items.length + 1) 0 items 0 0 hp

/-! ## Loader lemmas -/

lemma loadItems_skip : ∀ (bs1 : List GlobalBlob) (k : ℕ) (b : GlobalBlob) (bs2 : List GlobalBlob),
    b.outcome.isOk = false →
    loadItems k (bs1 ++ b :: bs2) = loadItems k (bs1 ++ bs2) := by
  intro bs1
  induction bs1 with
  | nil =>
      intro k b bs2 hb
      cases hbo : b.outcome with
      | ok h lu su => rw [hbo] at hb; simp [FetchOutcome.isOk] at hb
      | httpError st => simp [loadItems, hbo]
      | exn => simp [loadItems, hbo]
  | cons b1 rest ih =>
      intro k b bs2 hb
      cases hbo : b1.outcome with
      | ok h lu su => simp [loadItems, hbo, ih _ b bs2 hb]
      | httpError st => simp [loadItems, hbo, ih _ b bs2 hb]
      | exn => simp [loadItems, hbo, ih _ b bs2 hb]

/-- Removing a blob that fails to fetch or parse from the store does not
change the loaded corpus at all. -/
lemma getAllNewsItems_skip (bs1 : List GlobalBlob) (b : GlobalBlob) (bs2 : List GlobalBlob)
    (hb : b.outcome.isOk = false) :
    getAllNewsItems (bs1 ++ b :: bs2) = getAllNewsItems (bs1 ++ bs2) :=
  loadItems_skip bs1 0 b bs2 hb

lemma loadItems_ids_ge : ∀ (bs : List GlobalBlob) (k : ℕ),
    ∀ it ∈ loadItems k bs, k ≤ it.id := by
  intro bs
  induction bs with
  | nil => intro k it hit; simp [loadItems] at hit
  | cons b rest ih =>
      intro k it hit
      cases hbo : b.outcome with
      | ok h lu su =>
          simp only [loadItems, hbo] at hit
          rcases List.mem_cons.mp hit with hit | hit
          · rw [hit]
          · have := ih (k + 1) it hit
            omega
      | httpError st =>
          simp only [loadItems, hbo] at hit
          exact ih k it hit
      | exn =>
          simp only [loadItems, hbo] at hit
          exact ih k it hit

lemma loadItems_ids_nodup : ∀ (bs : List GlobalBlob) (k : ℕ),
    ((loadItems k bs).map NewsItemWithBlobUrl.id).Nodup := by
  intro bs
  induction bs with
  | nil => intro k; simp [loadItems]
  | cons b rest ih =>
      intro k
      cases hbo : b.outcome with
      | ok h lu su =>
          simp only [loadItems, hbo, List.map_cons, List.nodup_cons]
          refine ⟨?_, ih (k + 1)⟩
          intro hmem
          rcases List.mem_map.mp hmem with ⟨it, hit, hid⟩
          have := loadItems_ids_ge rest (k + 1) it hit
          omega
      | httpError st => simp only [loadItems, hbo]; exact ih k
      | exn => simp only [loadItems, hbo]; exact ih k

/-- Loaded items carry distinct identities (they model distinct JS objects). -/
lemma getAllNewsItems_ids_nodup (bs : List GlobalBlob) :
    ((getAllNewsItems bs).map NewsItemWithBlobUrl.id).Nodup :=
  loadItems_ids_nodup bs 0

/-! ## Fuel adequacy

The loops consume one unit of fuel per iteration, and every iteration either
advances `j` (resp. `i`) or shortens the working sequence, so
`items.length - j` (resp. `items.length - i`) bounds the remaining
iterations.  The chosen fuel values therefore never run out: any larger fuel
gives the same result, i.e. `runDedupe` is the loop run to completion. -/

lemma innerLoop_stable (env : Env) (i : ℕ) :
    ∀ (m : ℕ) (items : List NewsItemWithBlobUrl) (j d a f : ℕ),
      items.length ≤ j + m → m ≤ f →
      innerLoop env i f items j d a = innerLoop env i m items j d a := by
  intro m
  induction m with
  | zero =>
      intro items j d a f hlen _
      cases f with
      | zero => rfl
      | succ f => simp [innerLoop, show ¬ j < items.length by omega]
  | succ m ih =>
      intro items j d a f hlen hf
      cases f with
      | zero => omega
      | succ f =>
          by_cases hj : j < items.length
          · simp only [innerLoop, if_pos hj]
            by_cases hsim : similarity (items.getD i default).heading
                (items.getD j default).heading > LEVENSHTEIN_THRESHOLD
            · rw [if_pos hsim, if_pos hsim]
              cases hblob : (itemToDeleteOf (items.getD i default) (items.getD j default)).blobUrl with
              | none =>
                  simp only []
                  rw [ih items (j + 1) d a f (by omega) (by omega)]
              | some url =>
                  simp only []
                  by_cases hdel : env.delFails a = true
                  · rw [if_pos hdel, if_pos hdel]
                    rw [ih items (j + 1) d (a + 1) f (by omega) (by omega)]
                  · rw [if_neg hdel, if_neg hdel]
                    have hlen2 : (if List.indexOf (itemToDeleteOf (items.getD i default)
                        (items.getD j default)) items < items.length then
                          items.eraseIdx (List.indexOf (itemToDeleteOf (items.getD i default)
                            (items.getD j default)) items)
                        else items.eraseIdx (items.length - 1)).length = items.length - 1 := by
                      split
                      · exact List.length_eraseIdx_of_lt (by assumption)
                      · exact List.length_eraseIdx_of_lt (by omega)
                    rw [ih _ j (d + 1) (a + 1) f (by omega) (by omega)]
            · rw [if_neg hsim, if_neg hsim]
              rw [ih items (j + 1) d a f (by omega) (by omega)]
          · simp [innerLoop, hj]

lemma outerLoop_stable (env : Env) :
    ∀ (m i : ℕ) (items : List NewsItemWithBlobUrl) (d a f : ℕ),
      items.length ≤ i + m → m ≤ f →
      outerLoop env f i items d a = outerLoop env m i items d a := by
  intro m
  induction m with
  | zero =>
      intro i items d a f hlen _
      cases f with
      | zero => rfl
      | succ f => simp [outerLoop, show ¬ i < items.length by omega]
  | succ m ih =>
      intro i items d a f hlen hf
      cases f with
      | zero => omega
      | succ f =>
          by_cases hi : i < items.length
          · simp only [outerLoop, if_pos hi]
            have hsub := (innerLoop_basic env i (items.length + 1) items (i + 1) d a).1
            have hlen2 := hsub.length_le
            rw [ih (i + 1) _ _ _ f (by omega) (by omega)]
          · simp [outerLoop, hi]

/-- `runDedupe` is the scan run to completion: giving the loops any more fuel
changes nothing. -/
lemma runDedupe_complete (env : Env) (items : List NewsItemWithBlobUrl) (f : ℕ)
    (hf : items.length + 1 ≤ f) :
    outerLoop env f 0 items 0 0 = runDedupe env items := by
  unfold runDedupe
  rw [outerLoop_stable env (items.length + 1) 0 items 0 0 f (by omega) hf]

/-! ## Concrete corpora used by the counterexamples and witnesses

Headings: `sA = "aaaaab"`, `sB = "baaaaa"`, `sC = "aaaaaa"`, `sD = "zzzzzz"`,
`sE = "aaaaa"`, `sF = "aaaab"`.  Their similarities:
`similarity sA sB = 2/3`, `similarity sA sC = similarity sB sC = 5/6`,
`similarity sC sD = 0`, and `similarity sE sF = 4/5`, exactly the threshold. -/

def sA : List Char := [ 'a', 'a', 'a', 'a', 'a', 'b' ]

def sB : List Char := [ 'b', 'a', 'a', 'a', 'a', 'a' ]

def sC : List Char := [ 'a', 'a', 'a', 'a', 'a', 'a' ]

def sD : List Char := [ 'z', 'z', 'z', 'z', 'z', 'z' ]

def sE : List Char := [ 'a', 'a', 'a', 'a', 'a' ]

def sF : List Char := [ 'a', 'a', 'a', 'a', 'b' ]

lemma simAB : similarity sA sB = 2/3 := by
  simp only [similarity]
  norm_num [show levenshteinDistance sA sB = 2 from by decide,
    show max sA.length sB.length = 6 from by decide]

lemma simAC : similarity sA sC = 5/6 := by
  simp only [similarity]
  norm_num [show levenshteinDistance sA sC = 1 from by decide,
    show max sA.length sC.length = 6 from by decide]

lemma simBC : similarity sB sC = 5/6 := by
  simp only [similarity]
  norm_num [show levenshteinDistance sB sC = 1 from by decide,
    show max sB.length sC.length = 6 from by decide]

lemma simCA : similarity sC sA = 5/6 := by
  simp only [similarity]
  norm_num [show levenshteinDistance sC sA = 1 from by decide,
    show max sC.length sA.length = 6 from by decide]

lemma simCB : similarity sC sB = 5/6 := by
  simp only [similarity]
  norm_num [show levenshteinDistance sC sB = 1 from by decide,
    show max sC.length sB.length = 6 from by decide]

lemma simCD : similarity sC sD = 0 := by
  simp only [similarity]
  norm_num [show levenshteinDistance sC sD = 6 from by decide,
    show max sC.length sD.length = 6 from by decide]

lemma simEF : similarity sE sF = 4/5 := by
  simp only [similarity]
  norm_num [show levenshteinDistance sE sF = 1 from by decide,
    show max sE.length sF.length = 5 from by decide]

lemma cmpABf : (LEVENSHTEIN_THRESHOLD < similarity sA sB) = False := by
  simp only [eq_iff_iff, iff_false]
  rw [simAB, LEVENSHTEIN_THRESHOLD]; norm_num

lemma cmpACt : (LEVENSHTEIN_THRESHOLD < similarity sA sC) = True := by
  simp only [eq_iff_iff, iff_true]
  rw [simAC, LEVENSHTEIN_THRESHOLD]; norm_num

lemma cmpBCt : (LEVENSHTEIN_THRESHOLD < similarity sB sC) = True := by
  simp only [eq_iff_iff, iff_true]
  rw [simBC, LEVENSHTEIN_THRESHOLD]; norm_num

lemma cmpCAt : (LEVENSHTEIN_THRESHOLD < similarity sC sA) = True := by
  simp only [eq_iff_iff, iff_true]
  rw [simCA, LEVENSHTEIN_THRESHOLD]; norm_num

lemma cmpCBt : (LEVENSHTEIN_THRESHOLD < similarity sC sB) = True := by
  simp only [eq_iff_iff, iff_true]
  rw [simCB, LEVENSHTEIN_THRESHOLD]; norm_num

lemma cmpCDf : (LEVENSHTEIN_THRESHOLD < similarity sC sD) = False := by
  simp only [eq_iff_iff, iff_false]
  rw [simCD, LEVENSHTEIN_THRESHOLD]; norm_num

/-- Corpus for the index-skipping run: `itemA` ("aaaaab", oldest), `itemB`
("baaaaa"), `itemC` ("aaaaaa", newest).  `itemB` and `itemC` are near
duplicates of each other and of nothing else surviving. -/
def itemA : NewsItemWithBlobUrl := ⟨0, sA, 0, [ 's', 'a' ], some [ 'u', 'a' ]⟩

def itemB : NewsItemWithBlobUrl := ⟨1, sB, 5, [ 's', 'b' ], some [ 'u', 'b' ]⟩

def itemC : NewsItemWithBlobUrl := ⟨2, sC, 10, [ 's', 'c' ], some [ 'u', 'c' ]⟩

/-- Corpus for the survivor-recompared run: `itemN` ("aaaaaa", newest),
`itemO` ("aaaaab", oldest, deleted), `itemP` ("zzzzzz", unrelated). -/
def itemN : NewsItemWithBlobUrl := ⟨3, sC, 10, [ 's', 'n' ], some [ 'u', 'n' ]⟩

def itemO : NewsItemWithBlobUrl := ⟨4, sA, 0, [ 's', 'o' ], some [ 'u', 'o' ]⟩

def itemP : NewsItemWithBlobUrl := ⟨5, sD, 7, [ 's', 'p' ], some [ 'u', 'p' ]⟩

/-- Pair whose similarity is exactly the threshold. -/
def itemE : NewsItemWithBlobUrl := ⟨6, sE, 0, [ 's', 'e' ], some [ 'u', 'e' ]⟩

def itemF : NewsItemWithBlobUrl := ⟨7, sF, 1, [ 's', 'f' ], some [ 'u', 'f' ]⟩

/-- Pair with equal timestamps. -/
def itemT1 : NewsItemWithBlobUrl := ⟨8, sD, 7, [ 's', 't' ], some [ 'u', 't' ]⟩

def itemT2 : NewsItemWithBlobUrl := ⟨9, sD, 7, [ 's', 'v' ], some [ 'u', 'v' ]⟩

/-- Corpus for the failed-then-retried deletion run: `itemQ` ("aaaaaa",
oldest) matches both `itemR` ("aaaaab") and `itemS2` ("baaaaa"); the first
`deleteBlob` call fails, the second succeeds. -/
def itemQ : NewsItemWithBlobUrl := ⟨10, sC, 0, [ 's', 'q' ], some [ 'u', 'q' ]⟩

def itemR : NewsItemWithBlobUrl := ⟨11, sA, 5, [ 's', 'r' ], some [ 'u', 'r' ]⟩

def itemS2 : NewsItemWithBlobUrl := ⟨12, sB, 10, [ 's', 'w' ], some [ 'u', 'w' ]⟩

/-- Environment in which every external call succeeds and the persona cache
is empty. -/
def env0 : Env := ⟨fun _ => false, false, [], fun _ => false, id⟩

/-- Environment in which the first `deleteBlob` call throws and later ones
succeed. -/
def envRetry : Env := ⟨fun n => n == 0, false, [], fun _ => false, id⟩

/-- Environment in which listing the persona cache throws. -/
def envPersonaFail : Env := ⟨fun _ => false, true, [], fun _ => false, id⟩

lemma cmpEFf : (LEVENSHTEIN_THRESHOLD < similarity sE sF) = False := by
  simp only [eq_iff_iff, iff_false]
  rw [simEF, LEVENSHTEIN_THRESHOLD]; norm_num

set_option maxHeartbeats 1600000 in
/-- Full trace of the scan on `[itemA, itemB, itemC]`: after `itemA` (the
older duplicate of `itemC`) is spliced out at index 0, the `j--` adjustment
makes the loop continue with a new `item1` without restarting, so `itemB`
and `itemC` are never compared. -/
lemma runABC_eq : runDedupe env0 [itemA, itemB, itemC]
    = ⟨[itemB, itemC], 1, 1,
       [Event.compared 0 1 (similarity sA sB), Event.compared 0 2 (similarity sA sC),
        Event.primaryDeleted 0 [ 'u', 'a' ], Event.removed 0]⟩ := by
  simp only [runDedupe, outerLoop, innerLoop, personaCleanup, deleteVibeBlobs, itemToDeleteOf,
    env0, itemA, itemB, itemC, cmpABf, cmpACt, cmpBCt,
    List.getD_cons_zero, List.getD_cons_succ, List.length_cons, List.length_nil,
    List.indexOf_cons_self, List.indexOf_cons_eq, List.indexOf_cons_ne,
    List.eraseIdx_cons_zero, List.eraseIdx_cons_succ,
    NewsItemWithBlobUrl.mk.injEq, if_true, if_false, ite_true, ite_false]
  norm_num [cmpABf, cmpACt, cmpBCt,
    List.getD_cons_zero, List.getD_cons_succ,
    List.indexOf_cons_self, List.indexOf_cons_eq, List.indexOf_cons_ne,
    List.eraseIdx_cons_zero, List.eraseIdx_cons_succ,
    NewsItemWithBlobUrl.mk.injEq]

set_option maxHeartbeats 1600000 in
/-- Second run over the survivors of the first run: the missed duplicate
pair `itemB`/`itemC` is now found and one more deletion happens. -/
lemma runBC_eq : runDedupe env0 [itemB, itemC]
    = ⟨[itemC], 1, 1,
       [Event.compared 1 2 (similarity sB sC),
        Event.primaryDeleted 1 [ 'u', 'b' ], Event.removed 1]⟩ := by
  simp only [runDedupe, outerLoop, innerLoop, personaCleanup, deleteVibeBlobs, itemToDeleteOf,
    env0, itemB, itemC, cmpBCt,
    List.getD_cons_zero, List.getD_cons_succ, List.length_cons, List.length_nil,
    List.indexOf_cons_self, List.indexOf_cons_eq, List.indexOf_cons_ne,
    List.eraseIdx_cons_zero, List.eraseIdx_cons_succ,
    NewsItemWithBlobUrl.mk.injEq, if_true, if_false, ite_true, ite_false]
  norm_num [cmpBCt,
    List.getD_cons_zero, List.getD_cons_succ,
    List.indexOf_cons_self, List.indexOf_cons_eq, List.indexOf_cons_ne,
    List.eraseIdx_cons_zero, List.eraseIdx_cons_succ,
    NewsItemWithBlobUrl.mk.injEq]

set_option maxHeartbeats 1600000 in
/-- Full trace of the scan on `[itemN, itemO, itemP]`: the pair
`(itemN, itemO)` is resolved (deleting `itemO`), and the surviving `itemN`
is compared again, against `itemP`. -/
lemma runNOP_eq : runDedupe env0 [itemN, itemO, itemP]
    = ⟨[itemN, itemP], 1, 1,
       [Event.compared 3 4 (similarity sC sA),
        Event.primaryDeleted 4 [ 'u', 'o' ], Event.removed 4,
        Event.compared 3 5 (similarity sC sD)]⟩ := by
  simp only [runDedupe, outerLoop, innerLoop, personaCleanup, deleteVibeBlobs, itemToDeleteOf,
    env0, itemN, itemO, itemP, cmpCAt, cmpCDf,
    List.getD_cons_zero, List.getD_cons_succ, List.length_cons, List.length_nil,
    List.indexOf_cons_self, List.indexOf_cons_eq, List.indexOf_cons_ne,
    List.eraseIdx_cons_zero, List.eraseIdx_cons_succ,
    NewsItemWithBlobUrl.mk.injEq, if_true, if_false, ite_true, ite_false]
  norm_num [cmpCAt, cmpCDf,
    List.getD_cons_zero, List.getD_cons_succ,
    List.indexOf_cons_self, List.indexOf_cons_eq, List.indexOf_cons_ne,
    List.eraseIdx_cons_zero, List.eraseIdx_cons_succ,
    NewsItemWithBlobUrl.mk.injEq]

set_option maxHeartbeats 1600000 in
/-- Full trace of the scan on `[itemQ, itemR, itemS2]` with the first
`deleteBlob` call failing: the pair `(itemQ, itemR)` is matched but its
resolution is abandoned, `itemQ` stays in the working sequence, is matched
again with `itemS2`, and the retried deletion succeeds. -/
lemma runQRS_eq : runDedupe envRetry [itemQ, itemR, itemS2]
    = ⟨[itemR, itemS2], 1, 2,
       [Event.compared 10 11 (similarity sC sA),
        Event.primaryDeleteFailed 10 [ 'u', 'q' ],
        Event.compared 10 12 (similarity sC sB),
        Event.primaryDeleted 10 [ 'u', 'q' ], Event.removed 10]⟩ := by
  simp only [runDedupe, outerLoop, innerLoop, personaCleanup, deleteVibeBlobs, itemToDeleteOf,
    envRetry, itemQ, itemR, itemS2, cmpCAt, cmpCBt, cmpABf,
    List.getD_cons_zero, List.getD_cons_succ, List.length_cons, List.length_nil,
    List.indexOf_cons_self, List.indexOf_cons_eq, List.indexOf_cons_ne,
    List.eraseIdx_cons_zero, List.eraseIdx_cons_succ,
    NewsItemWithBlobUrl.mk.injEq, if_true, if_false, ite_true, ite_false]
  norm_num [cmpCAt, cmpCBt, cmpABf,
    List.getD_cons_zero, List.getD_cons_succ,
    List.indexOf_cons_self, List.indexOf_cons_eq, List.indexOf_cons_ne,
    List.eraseIdx_cons_zero, List.eraseIdx_cons_succ,
    NewsItemWithBlobUrl.mk.injEq]

/-! ## Claim theorems -/

/-- C2: for every matched pair the item with the strictly earlier
`lastUpdated` is selected for deletion, whichever scan index it occupies;
on exactly equal timestamps `item2` (the later scan index) is selected, so
`item1` is kept. -/
theorem resolution_deletes_strictly_older (item1 item2 : NewsItemWithBlobUrl) :
    (item1.lastUpdated < item2.lastUpdated → itemToDeleteOf item1 item2 = item1) ∧
    (item2.lastUpdated < item1.lastUpdated → itemToDeleteOf item1 item2 = item2) ∧
    (item1.lastUpdated = item2.lastUpdated → itemToDeleteOf item1 item2 = item2) := by
  refine ⟨?_, ?_, ?_⟩
  · intro h; simp [itemToDeleteOf, h]
  · intro h; simp [itemToDeleteOf, not_lt_of_gt h]
  · intro h; simp [itemToDeleteOf, h]

/-- Witness for C2 at concrete items: `itemA` (older) is deleted from either
scan position, and on the equal-timestamp pair `itemT1`/`itemT2` the second
item is deleted. -/
theorem resolution_deletes_strictly_older_witness :
    itemToDeleteOf itemA itemC = itemA ∧
    itemToDeleteOf itemC itemA = itemA ∧
    itemToDeleteOf itemT1 itemT2 = itemT2 :=
  ⟨(resolution_deletes_strictly_older itemA itemC).1 (by decide),
   (resolution_deletes_strictly_older itemC itemA).2.1 (by decide),
   (resolution_deletes_strictly_older itemT1 itemT2).2.2 (by decide)⟩

/-- C3: `levenshteinDistance` is exactly the minimum number of
single-character insertions, deletions and substitutions transforming `a`
into `b`, `similarity` is `1 - distance / max(|a|,|b|)` whenever some string
is nonempty, and two empty strings have similarity exactly `1`. -/
theorem similarity_is_normalized_min_edit_distance (a b : List Char) :
    IsLeast {n | EditsTo n a b} (levenshteinDistance a b) ∧
    (a = [] → b = [] → similarity a b = 1) ∧
    (max a.length b.length ≠ 0 →
      similarity a b = 1 - (levenshteinDistance a b : ℚ) / (max a.length b.length : ℚ)) := by
  refine ⟨levenshteinDistance_isLeast a b, ?_, ?_⟩
  · intro ha hb; subst ha; subst hb; norm_num [similarity]
  · intro h
    simp only [similarity]
    rw [if_neg h, Nat.cast_max]

/-- Witness for C3 at concrete strings. -/
theorem similarity_is_normalized_min_edit_distance_witness :
    similarity [] [] = 1 ∧
    similarity [ 'a', 'b' ] [ 'b' ]
      = 1 - (levenshteinDistance [ 'a', 'b' ] [ 'b' ] : ℚ)
          / (max (List.length [ 'a', 'b' ]) (List.length [ 'b' ]) : ℚ) :=
  ⟨(similarity_is_normalized_min_edit_distance [] []).2.1 rfl rfl,
   (similarity_is_normalized_min_edit_distance [ 'a', 'b' ] [ 'b' ]).2.2 (by decide)⟩

/-- C4: the threshold comparison is strict.  If every pair of distinct items
has similarity at most `LEVENSHTEIN_THRESHOLD` (equality allowed), the run
flags nothing: no item is deleted, the working sequence is unchanged, and
the log holds only similarity comparisons. -/
theorem exact_threshold_pair_not_flagged (env : Env) (items : List NewsItemWithBlobUrl)
    (hp : List.Pairwise (fun p q => similarity p.heading q.heading ≤ LEVENSHTEIN_THRESHOLD) items) :
    (runDedupe env items).items = items ∧
    (runDedupe env items).deleted = 0 ∧
    ∀ e ∈ (runDedupe env items).log, ∃ i1 i2 s, e = Event.compared i1 i2 s :=
  runDedupe_noMatches env items hp

/-- Witness for C4: `itemE`/`itemF` have similarity exactly `0.8`, and the
run deletes neither. -/
theorem exact_threshold_pair_not_flagged_witness :
    similarity itemE.heading itemF.heading = LEVENSHTEIN_THRESHOLD ∧
    (runDedupe env0 [itemE, itemF]).items = [itemE, itemF] ∧
    (runDedupe env0 [itemE, itemF]).deleted = 0 := by
  have hp : List.Pairwise (fun p q => similarity p.heading q.heading ≤ LEVENSHTEIN_THRESHOLD)
      [itemE, itemF] := by
    refine List.Pairwise.cons ?_ (List.pairwise_singleton _ _)
    intro q hq
    rw [List.mem_singleton] at hq
    subst hq
    show similarity sE sF ≤ LEVENSHTEIN_THRESHOLD
    rw [simEF, LEVENSHTEIN_THRESHOLD]; norm_num
  refine ⟨?_, (exact_threshold_pair_not_flagged env0 [itemE, itemF] hp).1,
    (exact_threshold_pair_not_flagged env0 [itemE, itemF] hp).2.1⟩
  show similarity sE sF = LEVENSHTEIN_THRESHOLD
  rw [simEF, LEVENSHTEIN_THRESHOLD]; norm_num

/-- C5: the working sequence only shrinks — the final sequence is a
subsequence of the initial one and exactly one element is removed per
successful primary deletion — and no similarity comparison involves an item
already removed from the working sequence. -/
theorem working_sequence_shrinks_monotonically (env : Env) (items : List NewsItemWithBlobUrl)
    (hnd : (items.map NewsItemWithBlobUrl.id).Nodup) :
    List.Sublist (runDedupe env items).items items ∧
    (runDedupe env items).items.length + countPrimaryDeleted (runDedupe env items).log
      = items.length ∧
    comparedAfterRemoved [] (runDedupe env items).log = false := by
  obtain ⟨h1, _, h3⟩ := runDedupe_basic env items
  exact ⟨h1, h3, runDedupe_removedClean env items hnd⟩

/-- Witness for C5 on the concrete corpus `[itemA, itemB, itemC]`. -/
theorem working_sequence_shrinks_monotonically_witness :
    List.Sublist (runDedupe env0 [itemA, itemB, itemC]).items [itemA, itemB, itemC] ∧
    (runDedupe env0 [itemA, itemB, itemC]).items.length
      + countPrimaryDeleted (runDedupe env0 [itemA, itemB, itemC]).log = 3 ∧
    comparedAfterRemoved [] (runDedupe env0 [itemA, itemB, itemC]).log = false :=
  working_sequence_shrinks_monotonically env0 [itemA, itemB, itemC] (by decide)

/-- C1 (failing run): on `[itemA, itemB, itemC]` the handler deletes `itemA`
(the older duplicate of `itemC`), but because the element at the outer index
was spliced out while only `j` was adjusted, `itemB` is never compared with
`itemC`: two items whose similarity exceeds the threshold both survive, and
a second run over the surviving corpus performs one more deletion instead of
zero. -/
theorem rerun_after_dedupe_deletes_again :
    (runDedupe env0 [itemA, itemB, itemC]).items = [itemB, itemC] ∧
    (runDedupe env0 [itemA, itemB, itemC]).deleted = 1 ∧
    similarity itemB.heading itemC.heading > LEVENSHTEIN_THRESHOLD ∧
    (runDedupe env0 (runDedupe env0 [itemA, itemB, itemC]).items).deleted = 1 := by
  refine ⟨by rw [runABC_eq], by rw [runABC_eq], ?_, ?_⟩
  · show LEVENSHTEIN_THRESHOLD < similarity sB sC
    rw [simBC, LEVENSHTEIN_THRESHOLD]; norm_num
  · rw [runABC_eq]
    show (runDedupe env0 [itemB, itemC]).deleted = 1
    rw [runBC_eq]

/-- Checker for the C6 claim as stated: scans a log and returns `true` when
some later `compared` event mentions a member (deleted or surviving) of an
already-resolved pair.  A pair is resolved when a `primaryDeleted` event
follows its `compared` event. -/
def comparedAfterResolved : List ℕ → Option (ℕ × ℕ) → List Event → Bool
  | _, _, [] => false
  | S, _, Event.compared i1 i2 _ :: rest =>
      S.contains i1 || S.contains i2 || comparedAfterResolved S (some (i1, i2)) rest
  | S, some (p, q), Event.primaryDeleted _ _ :: rest =>
      comparedAfterResolved (p :: q :: S) (some (p, q)) rest
  | S, none, Event.primaryDeleted _ _ :: rest => comparedAfterResolved S none rest
  | S, lastPair, _ :: rest => comparedAfterResolved S lastPair rest

/-- C6 (counterexample): after the pair `(itemN, itemO)` is resolved by
deleting `itemO`, the surviving `itemN` stays the current `item1` and is
compared again (with `itemP`) in the same run, so it is false that neither
member of a resolved pair takes part in any further comparison. -/
theorem surviving_member_compared_again :
    comparedAfterResolved [] none (runDedupe env0 [itemN, itemO, itemP]).log = true := by
  rw [runNOP_eq]
  decide

/-- C6 (amended): after a pair is resolved, the deleted item — spliced out of
the working sequence — never takes part in a later similarity comparison in
the same run (the surviving item may, as `surviving_member_compared_again`
shows). -/
theorem deleted_member_never_compared_again (env : Env) (items : List NewsItemWithBlobUrl)
    (hnd : (items.map NewsItemWithBlobUrl.id).Nodup) :
    comparedAfterRemoved [] (runDedupe env items).log = false :=
  runDedupe_removedClean env items hnd

/-- Witness for the amended C6 on the concrete corpus `[itemN, itemO, itemP]`. -/
theorem deleted_member_never_compared_again_witness :
    comparedAfterRemoved [] (runDedupe env0 [itemN, itemO, itemP]).log = false :=
  deleted_member_never_compared_again env0 [itemN, itemO, itemP] (by decide)

/-- C7: a stored object that fails to fetch or parse is skipped —
`getAllNewsItems` returns exactly the items loaded from the remaining
blobs — and the handler still completes with status 200 and deduplicates the
valid items just as it would without the bad blob. -/
theorem bad_blob_skipped_run_completes (bs1 : List GlobalBlob) (b : GlobalBlob)
    (bs2 : List GlobalBlob) (hb : b.outcome.isOk = false) (errMsg : String) (env : Env) :
    getAllNewsItems (bs1 ++ b :: bs2) = getAllNewsItems (bs1 ++ bs2) ∧
    handler "POST" (some (bs1 ++ b :: bs2)) errMsg env
      = handler "POST" (some (bs1 ++ bs2)) errMsg env ∧
    (handler "POST" (some (bs1 ++ b :: bs2)) errMsg env).status = 200 := by
  have h1 := getAllNewsItems_skip bs1 b bs2 hb
  refine ⟨h1, by simp [handler, h1], by simp [handler]⟩

/-- Witness for C7: a corpus with one unparseable blob loads and runs
exactly like the corpus without it. -/
theorem bad_blob_skipped_run_completes_witness :
    getAllNewsItems ([⟨[ 'u', 'a' ], FetchOutcome.ok sA 0 [ 's', 'a' ]⟩] ++
        ⟨[ 'u', 'x' ], FetchOutcome.exn⟩ :: [⟨[ 'u', 'c' ], FetchOutcome.ok sC 10 [ 's', 'c' ]⟩])
      = getAllNewsItems ([⟨[ 'u', 'a' ], FetchOutcome.ok sA 0 [ 's', 'a' ]⟩] ++
          [⟨[ 'u', 'c' ], FetchOutcome.ok sC 10 [ 's', 'c' ]⟩]) ∧
    handler "POST" (some ([⟨[ 'u', 'a' ], FetchOutcome.ok sA 0 [ 's', 'a' ]⟩] ++
        ⟨[ 'u', 'x' ], FetchOutcome.exn⟩ :: [⟨[ 'u', 'c' ], FetchOutcome.ok sC 10 [ 's', 'c' ]⟩]))
        "" env0
      = handler "POST" (some ([⟨[ 'u', 'a' ], FetchOutcome.ok sA 0 [ 's', 'a' ]⟩] ++
          [⟨[ 'u', 'c' ], FetchOutcome.ok sC 10 [ 's', 'c' ]⟩])) "" env0 ∧
    (handler "POST" (some ([⟨[ 'u', 'a' ], FetchOutcome.ok sA 0 [ 's', 'a' ]⟩] ++
        ⟨[ 'u', 'x' ], FetchOutcome.exn⟩ :: [⟨[ 'u', 'c' ], FetchOutcome.ok sC 10 [ 's', 'c' ]⟩]))
        "" env0).status = 200 :=
  bad_blob_skipped_run_completes [⟨[ 'u', 'a' ], FetchOutcome.ok sA 0 [ 's', 'a' ]⟩]
    ⟨[ 'u', 'x' ], FetchOutcome.exn⟩ [⟨[ 'u', 'c' ], FetchOutcome.ok sC 10 [ 's', 'c' ]⟩]
    rfl "" env0

/-- C8: persona-cache cleanup is best-effort and strictly inside a
resolution: every persona event in the log sits between a successful primary
deletion and the matching removal (so the primary deletion always comes
first), and changing the persona-cache environment in any way — including
making its `list` or `del` calls throw — changes neither the surviving
items nor the reported deletion count, and the handler still returns 200. -/
theorem persona_cleanup_best_effort (env env2 : Env) (hde : env.delFails = env2.delFails)
    (items : List NewsItemWithBlobUrl) (bs : List GlobalBlob) (errMsg : String) :
    personaOutside false (runDedupe env items).log = false ∧
    (runDedupe env items).items = (runDedupe env2 items).items ∧
    (runDedupe env items).deleted = (runDedupe env2 items).deleted ∧
    (handler "POST" (some bs) errMsg env).status = 200 := by
  obtain ⟨h1, h2, _⟩ := runDedupe_envIndep env env2 hde items
  exact ⟨runDedupe_personaOutside env items, h1, h2, by simp [handler]⟩

/-- Witness for C8: a run whose persona-cache listing throws behaves exactly
like the clean-environment run. -/
theorem persona_cleanup_best_effort_witness :
    personaOutside false (runDedupe envPersonaFail [itemN, itemO, itemP]).log = false ∧
    (runDedupe envPersonaFail [itemN, itemO, itemP]).items
      = (runDedupe env0 [itemN, itemO, itemP]).items ∧
    (runDedupe envPersonaFail [itemN, itemO, itemP]).deleted
      = (runDedupe env0 [itemN, itemO, itemP]).deleted ∧
    (handler "POST" (some []) "" envPersonaFail).status = 200 :=
  persona_cleanup_best_effort envPersonaFail env0 rfl [itemN, itemO, itemP] [] ""

/-- C9 (counterexample): the success payload's count field is named
`deleted`, not `deletedCount` — the keys of a successful response are
exactly `message` and `deleted`. -/
theorem success_payload_key_is_deleted :
    (handler "POST" (some []) "" env0).status = 200 ∧
    (handler "POST" (some []) "" env0).body.map Prod.fst = ["message", "deleted"] ∧
    "deletedCount" ∉ (handler "POST" (some []) "" env0).body.map Prod.fst := by
  refine ⟨by simp [handler], by simp [handler], by simp [handler]⟩

/-- C9 (amended): any verb other than POST is rejected with status 405 and
`Method Not Allowed`; when the global listing throws, the handler returns
status 500 with the failure message; on success it returns status 200 with
the summary object whose keys are `message` and `deleted`, the latter equal
to the number of primary objects deleted. -/
theorem handler_http_surface (env : Env) (errMsg : String) :
    (∀ (method : String) (gl : Option (List GlobalBlob)), method ≠ "POST" →
      handler method gl errMsg env = ⟨405, [("message", JVal.str "Method Not Allowed")]⟩) ∧
    handler "POST" none errMsg env
      = ⟨500, [("message", JVal.str ("Deduplication failed: " ++ errMsg))]⟩ ∧
    ∀ bs : List GlobalBlob,
      handler "POST" (some bs) errMsg env
        = ⟨200, [("message", JVal.str "Deduplication complete."),
            ("deleted", JVal.num (countPrimaryDeleted
              (runDedupe env (getAllNewsItems bs)).log))]⟩ := by
  refine ⟨?_, by simp [handler], ?_⟩
  · intro method gl hm
    simp [handler, hm]
  · intro bs
    have h := (runDedupe_basic env (getAllNewsItems bs)).2.1
    simp [handler, h]

/-- Witness for the amended C9 at concrete requests. -/
theorem handler_http_surface_witness :
    handler "GET" none "boom" env0 = ⟨405, [("message", JVal.str "Method Not Allowed")]⟩ ∧
    handler "POST" none "boom" env0
      = ⟨500, [("message", JVal.str ("Deduplication failed: " ++ "boom"))]⟩ ∧
    handler "POST" (some []) "boom" env0
      = ⟨200, [("message", JVal.str "Deduplication complete."),
          ("deleted", JVal.num (countPrimaryDeleted
            (runDedupe env0 (getAllNewsItems [])).log))]⟩ :=
  ⟨(handler_http_surface env0 "boom").1 "GET" none (by decide),
   (handler_http_surface env0 "boom").2.1,
   (handler_http_surface env0 "boom").2.2 []⟩

/-- C10: a failed primary deletion abandons that pair's resolution and
nothing else: the reported count equals the number of successful primary
deletions (failures are not counted), exactly one item leaves the working
sequence per successful deletion, persona cleanup happens only after a
successful primary deletion, any item never logged as removed — in
particular one whose deletion threw — is still in the final working
sequence (so it can be matched and retried later), and the handler still
returns status 200. -/
theorem failed_primary_delete_abandons_pair (env : Env) (items : List NewsItemWithBlobUrl)
    (bs : List GlobalBlob) (errMsg : String) :
    (runDedupe env items).deleted = countPrimaryDeleted (runDedupe env items).log ∧
    (runDedupe env items).items.length + countPrimaryDeleted (runDedupe env items).log
      = items.length ∧
    personaOutside false (runDedupe env items).log = false ∧
    (∀ it ∈ items, it.id ∉ removedIdsOf (runDedupe env items).log →
      it ∈ (runDedupe env items).items) ∧
    (handler "POST" (some bs) errMsg env).status = 200 := by
  obtain ⟨_, h2, h3⟩ := runDedupe_basic env items
  exact ⟨h2, h3, runDedupe_personaOutside env items, runDedupe_keep env items, by simp [handler]⟩

/-- Witness for C10 on the retry run `[itemQ, itemR, itemS2]` with the first
`deleteBlob` call failing: the count matches the successful deletions and
`itemR` (never removed) survives. -/
theorem failed_primary_delete_abandons_pair_witness :
    (runDedupe envRetry [itemQ, itemR, itemS2]).deleted
      = countPrimaryDeleted (runDedupe envRetry [itemQ, itemR, itemS2]).log ∧
    itemR ∈ (runDedupe envRetry [itemQ, itemR, itemS2]).items := by
  refine ⟨(failed_primary_delete_abandons_pair envRetry [itemQ, itemR, itemS2] [] "").1, ?_⟩
  refine (failed_primary_delete_abandons_pair envRetry [itemQ, itemR, itemS2] [] "").2.2.2.1
    itemR (by simp) ?_
  rw [runQRS_eq]
  decide
